import Mathlib

/-!
Verification of the two-phase k-shortest-path engine
(`s5169483_k_shortest_paths.cpp`, `custom-queue.cpp`, `check.cpp`, `filter.cpp`).

The C++ code works on `double`; the embedding uses exact rationals `ℚ` for
finite values and `WithTop ℚ` for values that may be `INFINITY` (the
per-vertex `shortest_path` field and queue priorities), which matches IEEE
behaviour on the values actually produced here (no NaNs arise from
non-negative finite weights; `q + ∞ = ∞`, `q < ∞`).

`size_t` indices are embedded as `ℕ`; out-of-range vector accesses (undefined
behaviour in C++) are total in the embedding via `List.getD` with the same
default the `C++` initialisation uses for vertices.
-/

/-- Edge record from `s5169483_k_shortest_paths.cpp` (`struct Edge`): weight
plus both endpoints.  The C++ field `from` is a Lean keyword, so it is
embedded as `fro`, and `to` (a token in this Lean setup) as `tov`. -/
structure Edge where
  weight : ℚ
  fro : ℕ
  tov : ℕ
deriving DecidableEq

/-- Vertex record (`struct Vertex`): outgoing/incoming edge-index lists and the
mutable `shortest_path` field, `INFINITY` (here `⊤`) until written. -/
structure Vertex where
  outgoing : List ℕ
  incoming : List ℕ
  shortest_path : WithTop ℚ
deriving DecidableEq

/-- Graph store (`struct Graph`): vertex and edge arrays. -/
structure Graph where
  vertices : List Vertex
  edges : List Edge
deriving DecidableEq

/-- The vertex value `read_graph_from_file` initialises every vertex with:
empty adjacency lists and `shortest_path = INFINITY`.  It also serves as the
out-of-range default for vertex reads. -/
def initial_vertex : Vertex := ⟨[], [], ⊤⟩

/-- Read `graph.vertices[v]` (out of range gives the initial vertex). -/
def getV (g : Graph) (v : ℕ) : Vertex := g.vertices.getD v initial_vertex

/-- Read `graph.edges[i]`. -/
def getE (g : Graph) (i : ℕ) : Edge := g.edges.getD i ⟨0, 0, 0⟩

/-- Read `graph.vertices[v].shortest_path`. -/
def distTo (g : Graph) (v : ℕ) : WithTop ℚ := (getV g v).shortest_path

/-- Write `graph.vertices[v].shortest_path = q` (no effect out of range, where
the C++ original is undefined behaviour). -/
def setSP (g : Graph) (v : ℕ) (q : WithTop ℚ) : Graph :=
  { g with vertices := g.vertices.set v { getV g v with shortest_path := q } }

/-- Queue element from the main file (`struct QueueElement`): vertex, priority
and accumulated path length.  `path_length` is always a finite sum of weights,
while `priority` can involve the `shortest_path` heuristic and hence be `∞`. -/
structure QueueElement where
  vertex_index : ℕ
  priority : WithTop ℚ
  path_length : ℚ
deriving DecidableEq

/-- Extraction of a minimum-priority element from a list, modelling
`std::priority_queue` with the inverted `operator<` of `QueueElement` (a
min-heap on `priority`).  The C++ heap extracts some element of minimum
priority deterministically; the embedding fixes the earliest-pushed one.
Returns the element and the remaining elements. -/
def popMinBy {α : Type} (pri : α → WithTop ℚ) : List α → Option (α × List α)
  | [] => none
  | e :: rest =>
    match popMinBy pri rest with
    | none => some (e, [])
    | some (m, rest') =>
      if pri e ≤ pri m then some (e, rest) else some (m, e :: rest')

/-- Minimum extraction for the main file's queue elements. -/
def popMin (q : List QueueElement) : Option (QueueElement × List QueueElement) :=
  popMinBy QueueElement.priority q

/-! ## Kernel-computable arithmetic

`Rat.add` normalizes with the well-founded `Nat.gcd`, which the kernel cannot
unfold, so concrete runs of the embedded program could not be evaluated inside
`decide`/`rfl` proofs.  `qadd`/`wadd` below are the same additions implemented
with a structurally recursive gcd; `qadd_eq`/`wadd_eq` prove they are exactly
`+`.  The embedded loops use them so that every concrete execution reduces in
the kernel. -/

/-- Euclid's algorithm with explicit fuel (structural recursion). -/
def ngcdAux : ℕ → ℕ → ℕ → ℕ
  | 0, _, n => n
  | fuel + 1, m, n => if m = 0 then n else ngcdAux fuel (n % m) m

/-- Structurally recursive gcd; equals `Nat.gcd` (`ngcd_eq`). -/
def ngcd (m n : ℕ) : ℕ := ngcdAux (m + 1) m n

theorem ngcdAux_eq : ∀ (fuel m n : ℕ), m < fuel → ngcdAux fuel m n = Nat.gcd m n
  | 0, _, _, h => absurd h (Nat.not_lt_zero _)
  | fuel + 1, m, n, h => by
    by_cases hm : m = 0
    · simp [ngcdAux, hm]
    · have hmpos : 0 < m := Nat.pos_of_ne_zero hm
      have h1 : n % m < fuel := lt_of_lt_of_le (Nat.mod_lt n hmpos) (Nat.lt_succ_iff.mp h)
      simp only [ngcdAux, if_neg hm]
      rw [ngcdAux_eq fuel (n % m) m h1, Nat.gcd_rec m n]

theorem ngcd_eq (m n : ℕ) : ngcd m n = Nat.gcd m n :=
  ngcdAux_eq (m + 1) m n (Nat.lt_succ_self m)

/-- Kernel-computable rational addition: the `Rat.add` num/den formula,
normalized with `ngcd`; `qadd_eq` proves `qadd a b = a + b`. -/
def qadd (a b : ℚ) : ℚ :=
  { num := (a.num * b.den + b.num * a.den) / ((ngcd (a.num * b.den + b.num * a.den).natAbs (a.den * b.den) : ℕ) : ℤ)
    den := (a.den * b.den) / ngcd (a.num * b.den + b.num * a.den).natAbs (a.den * b.den)
    den_nz := Rat.normalize.den_nz (Nat.mul_ne_zero a.den_nz b.den_nz) (ngcd_eq _ _)
    reduced := Rat.normalize.reduced' (Nat.mul_ne_zero a.den_nz b.den_nz) (ngcd_eq _ _) }

theorem qadd_eq (a b : ℚ) : qadd a b = a + b := by
  have hd : a.den * b.den ≠ 0 := Nat.mul_ne_zero a.den_nz b.den_nz
  rw [Rat.add_def', Rat.mkRat_def, dif_neg hd, Rat.normalize_eq]
  apply Rat.ext
  · show (a.num * b.den + b.num * a.den) / ((ngcd _ _ : ℕ) : ℤ) = _
    rw [ngcd_eq]
  · show (a.den * b.den) / ngcd _ _ = _
    rw [ngcd_eq]

/-- Kernel-computable addition on `WithTop ℚ` (`double` including
`INFINITY`): `∞` absorbs, finite values add; `wadd_eq` proves it is `+`. -/
def wadd (a b : WithTop ℚ) : WithTop ℚ :=
  Option.bind a fun x => Option.map (fun y => qadd x y) b

theorem wadd_eq (a b : WithTop ℚ) : wadd a b = a + b := by
  induction a using WithTop.recTopCoe with
  | top => rfl
  | coe x =>
    induction b using WithTop.recTopCoe with
    | top => rfl
    | coe y =>
      show (((qadd x y : ℚ) : WithTop ℚ)) = _
      rw [qadd_eq, WithTop.coe_add]

/-! ## Walks

A walk is a list of edge indices; `isWalk g s d w` says `w` chains from `s`
to `d` through existing edges of `g`. -/

/-- Walk validity: every index is in range, consecutive edges chain, the walk
starts at `s` and ends at `d`. -/
def isWalk (g : Graph) : ℕ → ℕ → List ℕ → Bool
  | s, d, [] => s == d
  | s, d, i :: rest =>
    decide (i < g.edges.length) && ((getE g i).fro == s) && isWalk g (getE g i).tov d rest

/-- Total weight of a walk. -/
def walkCost (g : Graph) (w : List ℕ) : ℚ := (w.map fun i => (getE g i).weight).sum

/-- All vertices of the walk strictly before its final endpoint differ from
`d`.  This is the class of walks the search phase actually enumerates: popping
the destination never expands its outgoing edges, so a walk may visit the
destination only at its very end. -/
def dAvoid (g : Graph) (d : ℕ) : ℕ → List ℕ → Bool
  | _, [] => true
  | s, i :: rest => decide (s ≠ d) && dAvoid g d (getE g i).tov rest

/-! ## Graph well-formedness

`read_graph_from_file` records, for each edge `(from, to, weight)` at index
`i`, the index `i` in `from`'s outgoing list and `to`'s incoming list, in
input order.  A graph is well-formed when its adjacency lists are exactly
those filters and all endpoints are in range. -/

def WellFormed (g : Graph) : Prop :=
  (∀ e ∈ g.edges, e.fro < g.vertices.length ∧ e.tov < g.vertices.length) ∧
  (∀ v < g.vertices.length,
    (getV g v).incoming = (List.range g.edges.length).filter (fun i => (getE g i).tov = v) ∧
    (getV g v).outgoing = (List.range g.edges.length).filter (fun i => (getE g i).fro = v))

instance (g : Graph) : Decidable (WellFormed g) := by
  unfold WellFormed; infer_instance

/-- Non-negative edge weights (the Dijkstra precondition). -/
def NonnegWeights (g : Graph) : Prop := ∀ e ∈ g.edges, 0 ≤ e.weight

instance (g : Graph) : Decidable (NonnegWeights g) := by
  unfold NonnegWeights; infer_instance

/-- All `shortest_path` fields still hold their initial `INFINITY`, as
`read_graph_from_file` leaves them. -/
def InitDists (g : Graph) : Prop := ∀ v < g.vertices.length, distTo g v = ⊤

instance (g : Graph) : Decidable (InitDists g) := by
  unfold InitDists; infer_instance

/-! ## Phase 1: `calculate_heuristic` (reverse Dijkstra), main file lines 90-133 -/

/-- Loop state of `calculate_heuristic`: the graph (whose `shortest_path`
fields it writes), the `visited_vertices` set (as a list of its elements,
most recently inserted first) and the priority queue contents. -/
structure HState where
  graph : Graph
  visited : List ℕ
  queue : List QueueElement
deriving DecidableEq

/-- The inner `for (auto edge_index : vertex.incoming)` loop of
`calculate_heuristic`: for each incoming edge whose source is unvisited and
whose relaxed length improves `shortest_path`, write the new distance and push
an element carrying it (priority = path length in this phase). -/
def relaxEdges (dval : ℚ) (vis : List ℕ) :
    Graph → List QueueElement → List ℕ → Graph × List QueueElement
  | g, q, [] => (g, q)
  | g, q, i :: rest =>
    let e := getE g i
    if e.fro ∈ vis then relaxEdges dval vis g q rest
    else
      let pl : ℚ := qadd dval e.weight
      if (pl : WithTop ℚ) < distTo g e.fro then
        relaxEdges dval vis (setSP g e.fro (pl : WithTop ℚ)) (q ++ [⟨e.fro, (pl : WithTop ℚ), pl⟩]) rest
      else relaxEdges dval vis g q rest

/-- The `while (!queue.empty())` loop of `calculate_heuristic`, with explicit
fuel (each iteration pops exactly one element; `hFuel` below is enough fuel to
drain the queue, see `heurLoop_drains`). -/
def heurLoop : ℕ → HState → HState
  | 0, st => st
  | fuel + 1, st =>
    match popMin st.queue with
    | none => st
    | some (e, q') =>
      if e.vertex_index ∈ st.visited then
        heurLoop fuel ⟨st.graph, st.visited, q'⟩
      else
        let vis' := e.vertex_index :: st.visited
        let gq := relaxEdges e.path_length vis' st.graph q' (getV st.graph e.vertex_index).incoming
        heurLoop fuel ⟨gq.1, vis', gq.2⟩

/-- Initial state of `calculate_heuristic`: push the destination with
priority and path length `0`, and set its `shortest_path` to `0`. -/
def initH (g : Graph) (d : ℕ) : HState := ⟨setSP g d 0, [], [⟨d, 0, 0⟩]⟩

/-- Total length of all incoming adjacency lists; used to bound the number of
loop iterations of the preprocessor. -/
def totalIn (g : Graph) : ℕ :=
  ((List.range g.vertices.length).map fun v => (getV g v).incoming.length).sum

/-- Fuel sufficient for the preprocessing loop (proved in
`heurLoop_drains`): one initial element plus at most one push per
(finalised vertex, incoming edge) pair. -/
def hFuel (g : Graph) : ℕ := 1 + totalIn g

/-- `calculate_heuristic(graph, destination)`: run the reverse Dijkstra loop
to completion and return the resulting graph. -/
def calculate_heuristic (g : Graph) (d : ℕ) : Graph :=
  (heurLoop (hFuel g) (initH g d)).graph

/-! ## Phase 2: `search` (forward A*), main file lines 140-194 -/

/-- Loop state of `search`: the graph (read only), the queue, the costs
printed so far (`out`, in print order) and the current value of `k`. -/
structure SState where
  graph : Graph
  queue : List QueueElement
  out : List ℚ
  k : ℕ
deriving DecidableEq

/-- The `for (auto edge_index : vertex.outgoing)` loop of `search`: push one
element per outgoing edge with priority `current_path_length + heuristic`. -/
def expandEdges (g : Graph) (pl : ℚ) (q : List QueueElement) (L : List ℕ) :
    List QueueElement :=
  q ++ L.map fun i =>
    ⟨(getE g i).tov, wadd ((qadd pl (getE g i).weight : ℚ) : WithTop ℚ) (distTo g (getE g i).tov),
      qadd pl (getE g i).weight⟩

/-- The `while (!queue.empty())` loop of `search`, with explicit fuel.  The
returned Bool is `true` iff the loop exited by itself (empty queue, or the
`k`-th cost printed); `false` means the fuel ran out first — the C++ loop
genuinely does not terminate on some inputs, see `C8_counterexample`. -/
def searchLoop (d : ℕ) : ℕ → SState → SState × Bool
  | 0, st => (st, false)
  | fuel + 1, st =>
    match popMin st.queue with
    | none => (st, true)
    | some (e, q') =>
      if e.vertex_index = d then
        if 1 < st.k then
          searchLoop d fuel { st with queue := q', out := st.out ++ [e.path_length], k := st.k - 1 }
        else ({ st with queue := q', out := st.out ++ [e.path_length] }, true)
      else
        searchLoop d fuel
          { st with queue := expandEdges st.graph e.path_length q' (getV st.graph e.vertex_index).outgoing }

/-- Initial state of `search`: the source with priority
`vertices[source].shortest_path` and path length `0`. -/
def initS (g : Graph) (s k : ℕ) : SState := ⟨g, [⟨s, distTo g s, 0⟩], [], k⟩

/-- The whole pipeline as `main` runs it: preprocess with
`calculate_heuristic`, then run the `search` loop with the given fuel. -/
def pipeline (g : Graph) (s d k fuel : ℕ) : SState × Bool :=
  searchLoop d fuel (initS (calculate_heuristic g d) s k)

/-! ## Loader (`read_graph_from_file`, main file lines 54-83) -/

/-- Model of a `std::vector<Edge>`: `reserve` changes only the capacity,
`operator[]` assignment beyond `size()` is out of bounds and (modelled
value-faithfully) does not grow the vector. -/
structure CxxVector where
  data : List Edge
  cap : ℕ
deriving DecidableEq

def vecReserve (v : CxxVector) (c : ℕ) : CxxVector := { v with cap := max v.cap c }

/-- `v[i] = x` on a `std::vector`: within `size()` it stores; at or beyond
`size()` it is an out-of-bounds write (undefined behaviour), which value-wise
leaves the vector contents unchanged (`List.set` out of range is the
identity). -/
def vecWrite (v : CxxVector) (i : ℕ) (x : Edge) : CxxVector :=
  { v with data := v.data.set i x }

/-- State of the loader loop, together with a trace recording, for every
`edges[i] = {weight, from, to}` assignment, the index written and the vector's
`size()` at that moment (so bounds violations are observable). -/
structure LoadState where
  vertices : List Vertex
  edgevec : CxxVector
  trace : List (ℕ × ℕ)
deriving DecidableEq

/-- Append an edge index to a vertex's outgoing list (no effect out of
range). -/
def pushOutgoing (vs : List Vertex) (v i : ℕ) : List Vertex :=
  vs.set v { vs.getD v initial_vertex with outgoing := (vs.getD v initial_vertex).outgoing ++ [i] }

/-- Append an edge index to a vertex's incoming list. -/
def pushIncoming (vs : List Vertex) (v i : ℕ) : List Vertex :=
  vs.set v { vs.getD v initial_vertex with incoming := (vs.getD v initial_vertex).incoming ++ [i] }

/-- Body of the edge-reading loop of `read_graph_from_file`, iterated over the
parsed `(from, to, weight)` triples with the running index `i`. -/
def loadStep (st : LoadState) (i : ℕ) (t : ℕ × ℕ × ℚ) : LoadState :=
  let e : Edge := ⟨t.2.2, t.1, t.2.1⟩
  { vertices := pushIncoming (pushOutgoing st.vertices t.1 i) t.2.1 i
    edgevec := vecWrite st.edgevec i e
    trace := st.trace ++ [(i, st.edgevec.data.length)] }

def loadLoop : LoadState → ℕ → List (ℕ × ℕ × ℚ) → LoadState
  | st, _, [] => st
  | st, i, t :: rest => loadLoop (loadStep st i t) (i + 1) rest

/-- `read_graph_from_file`, value model: size the vertex array with
`initial_vertex` copies, `reserve` (not resize!) the edge vector, then run the
edge loop.  No validation of any kind is performed (in particular none of the
weights' signs), exactly as in the source. -/
def read_graph_from_file (nv : ℕ) (input : List (ℕ × ℕ × ℚ)) : LoadState :=
  loadLoop ⟨List.replicate nv initial_vertex, vecReserve ⟨[], 0⟩ input.length, []⟩ 0 input

/-- Loader as the rest of the program de-facto consumes it: the C++ stores
edge `i` through `edges[i]` into storage obtained by `reserve` and reads it
back through the same indices, so the observable graph is the one with all
`num_edges` edges present in input order.  This model performs that append
(together with the adjacency bookkeeping of `read_graph_from_file`) and, like
the source, performs no validation whatsoever. -/
def readGraphModel (nv : ℕ) (input : List (ℕ × ℕ × ℚ)) : Graph :=
  { vertices := (read_graph_from_file nv input).vertices
    edges := input.map fun t => ⟨t.2.2, t.1, t.2.1⟩ }

/-! ## The indexed priority queue of `custom-queue.cpp` (lines 39-135)

`struct Queue` keeps a binary heap of elements and, through the graph's
vertices, a per-vertex `queue_index` back-reference (`qindex` here). -/

/-- Element of the custom queue (`struct Element`); its `operator<` compares
`priority` with plain `<`, so the heap is a min-heap. -/
structure CQElement where
  vertex : ℕ
  priority : WithTop ℚ
  path_length : ℚ
deriving DecidableEq

/-- State of a `Queue`: the heap vector and the vertices' `queue_index`
fields (all the queue touches of the graph). -/
structure CQState where
  heap : List CQElement
  qindex : List ℕ
deriving DecidableEq

/-- `SIZE_MAX`, the "absent" marker `read_graph_from_file` puts in
`queue_index`. -/
def sizeMAX : ℕ := 18446744073709551615

/-- Read `queue[i]`. -/
def cqGet (st : CQState) (i : ℕ) : CQElement := st.heap.getD i ⟨0, 0, 0⟩

/-- `Element::operator<`. -/
def cqLt (a b : CQElement) : Bool := decide (a.priority < b.priority)

def cqParent (i : ℕ) : ℕ := (i - 1) / 2

def cqLeft (i : ℕ) : ℕ := i * 2 + 1

def cqRight (i : ℕ) : ℕ := i * 2 + 2

/-- `Queue::swap(i, j)`: swap the two heap entries, then run
`vertices[queue[i].vertex].queue_index = j;`
`vertices[queue[j].vertex].queue_index = i;` — note these read the heap
AFTER the swap, exactly as the source does. -/
def cqSwap (st : CQState) (i j : ℕ) : CQState :=
  let a := cqGet st i
  let b := cqGet st j
  let heap' := (st.heap.set i b).set j a
  ⟨heap', (st.qindex.set b.vertex j).set a.vertex i⟩

/-- `Queue::sift_up` as a fuelled loop; the index moves strictly down to the
parent each iteration, so fuel `index + 1` always suffices. -/
def cqSiftUpF : ℕ → CQState → ℕ → CQState
  | 0, st, _ => st
  | fuel + 1, st, index =>
    if 0 < index ∧ cqLt (cqGet st index) (cqGet st (cqParent index)) = true then
      cqSiftUpF fuel (cqSwap st index (cqParent index)) (cqParent index)
    else st

def cqSiftUp (st : CQState) (index : ℕ) : CQState := cqSiftUpF (index + 1) st index

/-- `Queue::larger_child` (actually the smaller-priority child, as the
comparator is min-first). -/
def cqLargerChild (st : CQState) (i : ℕ) : ℕ :=
  if cqLt (cqGet st (cqLeft i)) (cqGet st (cqRight i)) = true then cqLeft i else cqRight i

/-- `Queue::sift_down` as a fuelled loop; the index at least doubles each
iteration while staying below the heap size, so fuel `heap.length` always
suffices. -/
def cqSiftDownF : ℕ → CQState → ℕ → CQState
  | 0, st, _ => st
  | fuel + 1, st, index =>
    if cqLeft index < st.heap.length then
      let child :=
        if cqRight index < st.heap.length then cqLargerChild st index else cqLeft index
      if cqLt (cqGet st child) (cqGet st index) = true then
        cqSiftDownF fuel (cqSwap st index child) child
      else st
    else st

def cqSiftDown (st : CQState) (index : ℕ) : CQState := cqSiftDownF st.heap.length st index

/-- `Queue::push`. -/
def cqPush (st : CQState) (e : CQElement) : CQState :=
  let heap' := st.heap ++ [e]
  let index := heap'.length - 1
  cqSiftUp ⟨heap', st.qindex.set e.vertex index⟩ index

/-- `Queue::pop`: save `queue[0]`, swap it with the last slot, shrink, sift
down from the root. -/
def cqPop (st : CQState) : CQElement × CQState :=
  let result := cqGet st 0
  let st' := cqSwap st 0 (st.heap.length - 1)
  (result, cqSiftDown ⟨st'.heap.dropLast, st'.qindex⟩ 0)

/-- `Queue::update` (decrease-key): overwrite priority and path length at a
heap slot and sift up. -/
def cqUpdate (st : CQState) (index : ℕ) (pri : WithTop ℚ) (pl : ℚ) : CQState :=
  cqSiftUp ⟨st.heap.set index { cqGet st index with priority := pri, path_length := pl }, st.qindex⟩ index

/-! ## Instrumented preprocessor: counting writes to `shortest_path`

Identical control flow to `relaxEdges`/`heurLoop`, additionally counting, per
vertex, every assignment to its `shortest_path` field. -/

structure HWState where
  graph : Graph
  visited : List ℕ
  queue : List QueueElement
  writes : List ℕ
deriving DecidableEq

/-- Record one write to vertex `v`'s `shortest_path`. -/
def bumpW (w : List ℕ) (v : ℕ) : List ℕ := w.set v (w.getD v 0 + 1)

def relaxEdgesW (dval : ℚ) (vis : List ℕ) :
    Graph → List QueueElement → List ℕ → List ℕ → Graph × List QueueElement × List ℕ
  | g, q, w, [] => (g, q, w)
  | g, q, w, i :: rest =>
    let e := getE g i
    if e.fro ∈ vis then relaxEdgesW dval vis g q w rest
    else
      let pl : ℚ := qadd dval e.weight
      if (pl : WithTop ℚ) < distTo g e.fro then
        relaxEdgesW dval vis (setSP g e.fro (pl : WithTop ℚ))
          (q ++ [⟨e.fro, (pl : WithTop ℚ), pl⟩]) (bumpW w e.fro) rest
      else relaxEdgesW dval vis g q w rest

def heurLoopW : ℕ → HWState → HWState
  | 0, st => st
  | fuel + 1, st =>
    match popMin st.queue with
    | none => st
    | some (e, q') =>
      if e.vertex_index ∈ st.visited then
        heurLoopW fuel ⟨st.graph, st.visited, q', st.writes⟩
      else
        let vis' := e.vertex_index :: st.visited
        let gqw := relaxEdgesW e.path_length vis' st.graph q' st.writes
          (getV st.graph e.vertex_index).incoming
        heurLoopW fuel ⟨gqw.1, vis', gqw.2.1, gqw.2.2⟩

/-- Instrumented `calculate_heuristic`: the initial
`graph.vertices[destination].shortest_path = 0.0` counts as a write too. -/
def heurRunW (g : Graph) (d : ℕ) : HWState :=
  heurLoopW (hFuel g) ⟨setSP g d 0, [], [⟨d, 0, 0⟩], bumpW (List.replicate g.vertices.length 0) d⟩

/-! ## Ghost variant of the search loop

Identical control flow to `searchLoop`, but each queue element additionally
carries the walk (edge-index list) that produced it, and emitted walks are
recorded.  `searchLoopG_proj` below shows it projects onto `searchLoop`. -/

structure GElem where
  vertex_index : ℕ
  priority : WithTop ℚ
  path_length : ℚ
  walk : List ℕ
deriving DecidableEq

/-- Forget the ghost walk. -/
def projG (e : GElem) : QueueElement := ⟨e.vertex_index, e.priority, e.path_length⟩

structure GSState where
  queue : List GElem
  out : List ℚ
  emitted : List (List ℕ)
  k : ℕ
deriving DecidableEq

def expandEdgesG (g : Graph) (pl : ℚ) (w : List ℕ) (q : List GElem) (L : List ℕ) :
    List GElem :=
  q ++ L.map fun i =>
    ⟨(getE g i).tov, wadd ((qadd pl (getE g i).weight : ℚ) : WithTop ℚ) (distTo g (getE g i).tov),
      qadd pl (getE g i).weight, w ++ [i]⟩

def searchLoopG (g : Graph) (d : ℕ) : ℕ → GSState → GSState × Bool
  | 0, st => (st, false)
  | fuel + 1, st =>
    match popMinBy GElem.priority st.queue with
    | none => (st, true)
    | some (e, q') =>
      if e.vertex_index = d then
        if 1 < st.k then
          searchLoopG g d fuel ⟨q', st.out ++ [e.path_length], st.emitted ++ [e.walk], st.k - 1⟩
        else (⟨q', st.out ++ [e.path_length], st.emitted ++ [e.walk], st.k⟩, true)
      else
        searchLoopG g d fuel
          ⟨expandEdgesG g e.path_length e.walk q' (getV g e.vertex_index).outgoing,
            st.out, st.emitted, st.k⟩

def initG (g : Graph) (s k : ℕ) : GSState := ⟨[⟨s, distTo g s, 0, []⟩], [], [], k⟩

/-- Projection of a ghost state onto a plain search state over graph `g`. -/
def projS (g : Graph) (st : GSState) : SState := ⟨g, st.queue.map projG, st.out, st.k⟩

/-! ## Walk enumeration and counting (for termination analysis) -/

/-- Walk validity without a prescribed endpoint. -/
def isWalkFrom (g : Graph) : ℕ → List ℕ → Bool
  | _, [] => true
  | s, i :: rest =>
    decide (i < g.edges.length) && ((getE g i).fro == s) && isWalkFrom g (getE g i).tov rest

/-- All lists of edge indices of length `L` that chain from `s` (follows the
outgoing adjacency lists, which under `WellFormed` is exhaustive). -/
def walksLen (g : Graph) : ℕ → ℕ → List (List ℕ)
  | 0, _ => [[]]
  | L + 1, s =>
    (getV g s).outgoing.flatMap fun i => (walksLen g L (getE g i).tov).map fun w => i :: w

/-- Number of nodes of the depth-`L` expansion tree below a vertex: `1` for
the walk itself plus one subtree per outgoing edge. -/
def walkCount (g : Graph) : ℕ → ℕ → ℕ
  | 0, _ => 1
  | L + 1, v => 1 + ((getV g v).outgoing.map fun i => walkCount g L (getE g i).tov).sum

/-- Termination measure of the ghost search: total tree size still reachable
from the queue, depths clipped at `n = ` number of vertices. -/
def gMeasure (g : Graph) (n : ℕ) (st : GSState) : ℕ :=
  (st.queue.map fun e => walkCount g (n - e.walk.length) e.vertex_index).sum

/-! ## Concrete graphs used as counterexamples and witnesses -/

/-- Two vertices with the 2-cycle 0→1→0 (weights 1): the destination 1 is
reached by infinitely many distinct edge-walks. -/
def cycleGraph : Graph := readGraphModel 2 [(0, 1, 1), (1, 0, 1)]

/-- Three vertices, the 2-cycle 0→1→0, and vertex 2 isolated (the
destination, unreachable from the source 0). -/
def c8Graph : Graph := readGraphModel 3 [(0, 1, 1), (1, 0, 1)]

/-- Two vertices and no edges at all: the destination 1 is unreachable from
the source 0 and the expansion tree is trivially finite. -/
def noEdgeGraph : Graph := readGraphModel 2 []

/-- The search phase on `c8Graph` (source 0, destination 2, k = 1) never
finishes, no matter how long it runs. -/
def SearchDiverges : Prop := ∀ fuel, (pipeline c8Graph 0 2 1 fuel).2 = false

/-- The 4-vertex graph of the spec's concrete scenario. -/
def exampleGraph : Graph := readGraphModel 4 [(0, 1, 1), (1, 3, 1), (0, 2, 5), (2, 3, 1)]

/-- The graph on which preprocessing writes vertex 0's `shortest_path`
twice. -/
def twoWriteGraph : Graph := readGraphModel 3 [(0, 2, 5), (0, 1, 1), (1, 2, 1)]

/-! ## Invariant vocabulary -/

/-- The part of the graph neither phase ever changes: vertex count, edge
array and adjacency lists (only `shortest_path` fields are written). -/
def SameShape (g0 g : Graph) : Prop :=
  g.vertices.length = g0.vertices.length ∧ g.edges = g0.edges ∧
  ∀ v, (getV g v).incoming = (getV g0 v).incoming ∧
    (getV g v).outgoing = (getV g0 v).outgoing

/-- `c` is the cost of some `v`→`d` walk of `g` and a lower bound of the cost
of every such walk: `c` is the exact shortest distance from `v` to `d`. -/
def IsOptAt (g : Graph) (d v : ℕ) (c : WithTop ℚ) : Prop :=
  (∃ w, isWalk g v d w = true ∧ c = ((walkCost g w : ℚ) : WithTop ℚ)) ∧
  ∀ w, isWalk g v d w = true → c ≤ ((walkCost g w : ℚ) : WithTop ℚ)

/-- Invariant of the reverse-Dijkstra loop over the input graph `g0` (whose
`shortest_path` fields are all `⊤`, destination set to `0` in `initH`). -/
structure HInv (g0 : Graph) (d : ℕ) (st : HState) : Prop where
  shape : SameShape g0 st.graph
  sound : ∀ v, distTo st.graph v = ⊤ ∨
    ∃ w, isWalk g0 v d w = true ∧ distTo st.graph v = ((walkCost g0 w : ℚ) : WithTop ℚ)
  vopt : ∀ v ∈ st.visited, IsOptAt g0 d v (distTo st.graph v)
  elems : ∀ e ∈ st.queue, e.priority = ((e.path_length : ℚ) : WithTop ℚ) ∧
    (∃ w, isWalk g0 e.vertex_index d w = true ∧ walkCost g0 w = e.path_length) ∧
    distTo st.graph e.vertex_index ≤ ((e.path_length : ℚ) : WithTop ℚ)
  qwit : ∀ v, v ∉ st.visited → distTo st.graph v ≠ ⊤ →
    ∃ e ∈ st.queue, e.vertex_index = v ∧ e.priority ≤ distTo st.graph v
  frontier : ∀ i < g0.edges.length, (getE g0 i).fro ∉ st.visited →
    (getE g0 i).tov ∈ st.visited →
    distTo st.graph (getE g0 i).fro ≤
      (((getE g0 i).weight : ℚ) : WithTop ℚ) + distTo st.graph (getE g0 i).tov
  start0 : st.visited = [] → st.queue = [⟨d, 0, 0⟩] ∧ distTo st.graph d = 0 ∧
    ∀ v, v ≠ d → distTo st.graph v = ⊤
  dvis : st.visited ≠ [] → d ∈ st.visited

/-- Termination potential of the preprocessing loop: queue size plus the
total incoming-degree of the unvisited in-range vertices.  It strictly drops
every iteration. -/
def heurPot (st : HState) : ℕ :=
  st.queue.length +
  ((List.range st.graph.vertices.length).map
    fun v => if v ∈ st.visited then 0 else (getV st.graph v).incoming.length).sum

/-- Invariant of the (ghost) A* search loop over the searched graph `g`
(whose `shortest_path` fields hold the heuristic), destination `d` and source
`s`.  Queue elements carry the walk that produced them; `emitted` records the
walks whose costs have been printed, in print order. -/
structure SInvG (g : Graph) (d s : ℕ) (st : GSState) : Prop where
  elems : ∀ e ∈ st.queue, isWalk g s e.vertex_index e.walk = true ∧
    dAvoid g d s e.walk = true ∧ e.path_length = walkCost g e.walk ∧
    e.priority = ((e.path_length : ℚ) : WithTop ℚ) + distTo g e.vertex_index
  emitted_walks : ∀ w ∈ st.emitted, isWalk g s d w = true ∧ dAvoid g d s w = true
  emitted_costs : st.out = st.emitted.map (walkCost g)
  anti : List.Pairwise (fun a b => (∀ r, a ++ r ≠ b) ∧ (∀ r, b ++ r ≠ a))
    (st.queue.map GElem.walk ++ st.emitted)
  complete : ∀ w, isWalk g s d w = true → dAvoid g d s w = true →
    w ∈ st.emitted ∨ ∃ e ∈ st.queue, ∃ r, e.walk ++ r = w
  sorted : List.Pairwise (· ≤ ·) st.out
  ordered : ∀ c ∈ st.out, ∀ e ∈ st.queue, ((c : ℚ) : WithTop ℚ) ≤ e.priority

/-! ## Properties of minimum extraction -/

theorem popMinBy_eq_none {α : Type} (pri : α → WithTop ℚ) (l : List α) :
    popMinBy pri l = none ↔ l = [] := by
  cases l with
  | nil => simp [popMinBy]
  | cons e rest =>
    constructor
    · intro h
      cases hrest : popMinBy pri rest with
      | none => simp [popMinBy, hrest] at h
      | some p =>
        obtain ⟨m, rest'⟩ := p
        simp only [popMinBy, hrest] at h
        by_cases hle : pri e ≤ pri m <;> simp [hle] at h
    · intro h; cases h

theorem popMinBy_perm {α : Type} (pri : α → WithTop ℚ) :
    ∀ (l : List α) (e : α) (l' : List α),
      popMinBy pri l = some (e, l') → l.Perm (e :: l')
  | [], e, l', h => by simp [popMinBy] at h
  | a :: rest, e, l', h => by
    cases hrest : popMinBy pri rest with
    | none =>
      have hr : rest = [] := (popMinBy_eq_none pri rest).mp hrest
      subst hr
      simp only [popMinBy, hrest] at h
      simp at h
      obtain ⟨he, hl⟩ := h
      subst he; subst hl
      exact List.Perm.refl _
    | some p =>
      obtain ⟨m, rest'⟩ := p
      simp only [popMinBy, hrest] at h
      by_cases hle : pri a ≤ pri m
      · simp only [if_pos hle] at h
        simp at h
        obtain ⟨he, hl⟩ := h
        subst he; subst hl
        exact List.Perm.refl _
      · simp only [if_neg hle] at h
        simp at h
        obtain ⟨he, hl⟩ := h
        subst he; subst hl
        have ih := popMinBy_perm pri rest m rest' hrest
        exact (ih.cons a).trans (List.Perm.swap m a rest')

theorem popMinBy_min {α : Type} (pri : α → WithTop ℚ) :
    ∀ (l : List α) (e : α) (l' : List α),
      popMinBy pri l = some (e, l') → ∀ x ∈ l, pri e ≤ pri x
  | [], e, l', h => by simp [popMinBy] at h
  | a :: rest, e, l', h => by
    cases hrest : popMinBy pri rest with
    | none =>
      have hr : rest = [] := (popMinBy_eq_none pri rest).mp hrest
      subst hr
      simp only [popMinBy, hrest] at h
      simp at h
      obtain ⟨he, hl⟩ := h
      subst he
      intro x hx
      simp at hx
      subst hx
      exact le_refl _
    | some p =>
      obtain ⟨m, rest'⟩ := p
      have ih := popMinBy_min pri rest m rest' hrest
      simp only [popMinBy, hrest] at h
      by_cases hle : pri a ≤ pri m
      · simp only [if_pos hle] at h
        simp at h
        obtain ⟨he, hl⟩ := h
        subst he
        intro x hx
        rcases List.mem_cons.mp hx with hx | hx
        · subst hx; exact le_refl _
        · exact le_trans hle (ih x hx)
      · simp only [if_neg hle] at h
        simp at h
        obtain ⟨he, hl⟩ := h
        subst he
        intro x hx
        rcases List.mem_cons.mp hx with hx | hx
        · subst hx; exact le_of_not_le hle
        · exact ih x hx

theorem popMinBy_mem {α : Type} (pri : α → WithTop ℚ) (l : List α) (e : α) (l' : List α)
    (h : popMinBy pri l = some (e, l')) : ∀ x ∈ l', x ∈ l :=
  fun x hx => (popMinBy_perm pri l e l' h).mem_iff.mpr (List.mem_cons_of_mem e hx)

theorem popMinBy_self_mem {α : Type} (pri : α → WithTop ℚ) (l : List α) (e : α) (l' : List α)
    (h : popMinBy pri l = some (e, l')) : e ∈ l :=
  (popMinBy_perm pri l e l' h).mem_iff.mpr (List.mem_cons_self e l')

/-- Minimum extraction commutes with mapping a priority-preserving function
(ties are broken by position, which mapping preserves). -/
theorem popMinBy_map {α β : Type} (pri₁ : α → WithTop ℚ) (pri₂ : β → WithTop ℚ) (f : α → β)
    (hf : ∀ a, pri₂ (f a) = pri₁ a) :
    ∀ l : List α, popMinBy pri₂ (l.map f) =
      (popMinBy pri₁ l).map fun p => (f p.1, p.2.map f)
  | [] => by simp [popMinBy]
  | a :: rest => by
    have ih := popMinBy_map pri₁ pri₂ f hf rest
    simp only [List.map_cons, popMinBy, ih]
    cases hrest : popMinBy pri₁ rest with
    | none => simp
    | some p =>
      obtain ⟨m, rest'⟩ := p
      by_cases hle : pri₁ a ≤ pri₁ m
      · simp [hf, hle]
      · simp [hf, hle]

/-! ## The search loop never writes the graph -/

theorem searchLoop_graph_eq (d : ℕ) :
    ∀ (fuel : ℕ) (st : SState), ((searchLoop d fuel st).1).graph = st.graph
  | 0, st => rfl
  | fuel + 1, st => by
    simp only [searchLoop]
    cases hpop : popMin st.queue with
    | none => rfl
    | some p =>
      obtain ⟨e, q'⟩ := p
      by_cases hd : e.vertex_index = d
      · simp only [if_pos hd]
        by_cases hk : 1 < st.k
        · simp only [if_pos hk]
          exact searchLoop_graph_eq d fuel _
        · simp only [if_neg hk]
      · simp only [if_neg hd]
        exact searchLoop_graph_eq d fuel _

/-! ## Claim theorems: the easily evaluated claims -/

/-- Claim C3 (code_bug): in `custom-queue.cpp`, after `push(vertex 0, priority 5)`
followed by `push(vertex 1, priority 3)`, the sift-up swap moves vertex 1's
element to slot 0 and vertex 0's element to slot 1, but `Queue::swap` records
the PRE-swap slots: `queue_index` of vertex 0 stays 0 (its element really is at
slot 1) and of vertex 1 stays 1 (element at slot 0).  The recorded slot of an
element remaining in the heap differs from the slot actually holding it. -/
theorem C3_queue_index_mismatch :
    (cqPush (cqPush ⟨[], [sizeMAX, sizeMAX]⟩ ⟨0, 5, 5⟩) ⟨1, 3, 3⟩).heap =
        [⟨1, 3, 3⟩, ⟨0, 5, 5⟩] ∧
    (cqPush (cqPush ⟨[], [sizeMAX, sizeMAX]⟩ ⟨0, 5, 5⟩) ⟨1, 3, 3⟩).qindex = [0, 1] ∧
    (cqGet (cqPush (cqPush ⟨[], [sizeMAX, sizeMAX]⟩ ⟨0, 5, 5⟩) ⟨1, 3, 3⟩) 1).vertex = 0 ∧
    (cqPush (cqPush ⟨[], [sizeMAX, sizeMAX]⟩ ⟨0, 5, 5⟩) ⟨1, 3, 3⟩).qindex.getD 0 sizeMAX ≠ 1 := by
  decide

/-- Claim C4 (code_bug): on the input graph `2 1 / 0 1 -1` the loader performs
no validation whatsoever — the negative-weight edge is stored as-is (there is
no error path in `read_graph_from_file` at all) — and both phases then run on
it: preprocessing computes `shortest_path[0] = -1` from the negative weight and
the search emits the cost `-1`, instead of an invalid-input error. -/
theorem C4_negative_weight_not_detected :
    (∃ e ∈ (readGraphModel 2 [(0, 1, -1)]).edges, e.weight < 0) ∧
    distTo (calculate_heuristic (readGraphModel 2 [(0, 1, -1)]) 1) 0 = ((-1 : ℚ) : WithTop ℚ) ∧
    (pipeline (readGraphModel 2 [(0, 1, -1)]) 0 1 1 10).1.out = [-1] ∧
    (pipeline (readGraphModel 2 [(0, 1, -1)]) 0 1 1 10).2 = true := by
  decide

/-- Claim C5 (code_bug): loading the well-formed input `2 1 / 0 1 1` performs
the assignment `edges[0] = ...` while the edge vector's size is still 0 (only
capacity was reserved) — an out-of-bounds write — and afterwards the edge
array holds none of the `num_edges` edges instead of all of them. -/
theorem C5_out_of_bounds_write :
    (read_graph_from_file 2 [(0, 1, 1)]).trace = [(0, 0)] ∧
    (∀ p ∈ (read_graph_from_file 2 [(0, 1, 1)]).trace, ¬ p.1 < p.2) ∧
    (read_graph_from_file 2 [(0, 1, 1)]).edgevec.data.length = 0 := by
  decide

/-- Claim C7 (confirmed): on the 4-vertex graph with edges (0→1,1), (1→3,1),
(0→2,5), (2→3,1), destination 3: preprocessing yields shortest_path values
3 ↦ 0, 1 ↦ 1, 2 ↦ 1, 0 ↦ 2, and the search from source 0 with k = 2 emits
exactly the costs [2, 6] and terminates. -/
theorem C7_concrete_scenario :
    distTo (calculate_heuristic exampleGraph 3) 3 = ((0 : ℚ) : WithTop ℚ) ∧
    distTo (calculate_heuristic exampleGraph 3) 1 = ((1 : ℚ) : WithTop ℚ) ∧
    distTo (calculate_heuristic exampleGraph 3) 2 = ((1 : ℚ) : WithTop ℚ) ∧
    distTo (calculate_heuristic exampleGraph 3) 0 = ((2 : ℚ) : WithTop ℚ) ∧
    (pipeline exampleGraph 0 3 2 30).1.out = [2, 6] ∧
    (pipeline exampleGraph 0 3 2 30).2 = true := by
  decide

/-- Claim C9 counterexample: on `twoWriteGraph` (edges (0→2,5), (0→1,1),
(1→2,1)) with destination 2, the preprocessing phase writes vertex 0's
`shortest_path` twice — once with 5 when vertex 2 is finalised and once with
the improvement 2 when vertex 1 is finalised — refuting "written exactly
once"; the instrumented run produces the same graph as `calculate_heuristic`. -/
theorem C9_write_twice :
    (heurRunW twoWriteGraph 2).writes.getD 0 0 = 2 ∧
    (heurRunW twoWriteGraph 2).graph = calculate_heuristic twoWriteGraph 2 := by
  decide

/-- Claim C9 (corrected): the search phase never writes any vertex's
`shortest_path`: from any state the search loop leaves the graph component
untouched, and in particular the pipeline's final graph is exactly the
preprocessor's output. -/
theorem C9_search_never_writes_dist (g : Graph) (s d k fuel : ℕ) (st : SState) :
    (pipeline g s d k fuel).1.graph = calculate_heuristic g d ∧
    ((searchLoop d fuel st).1).graph = st.graph :=
  ⟨searchLoop_graph_eq d fuel _, searchLoop_graph_eq d fuel st⟩

/-- Claim C10 (confirmed): the pipeline is deterministic — equal inputs give
equal preprocessed graphs and equal search outcomes.  The embedding (like the
C++ program) is a pure function of graph, source, destination and k:
`std::priority_queue` breaks ties as a deterministic function of the operation
sequence, and nothing in either phase consults any other source of
nondeterminism. -/
theorem C10_deterministic (g₁ g₂ : Graph) (s₁ s₂ d₁ d₂ k₁ k₂ fuel₁ fuel₂ : ℕ)
    (hg : g₁ = g₂) (hs : s₁ = s₂) (hd : d₁ = d₂) (hk : k₁ = k₂) (hf : fuel₁ = fuel₂) :
    calculate_heuristic g₁ d₁ = calculate_heuristic g₂ d₂ ∧
    pipeline g₁ s₁ d₁ k₁ fuel₁ = pipeline g₂ s₂ d₂ k₂ fuel₂ := by
  subst hg; subst hs; subst hd; subst hk; subst hf
  exact ⟨rfl, rfl⟩

/-- Witness for C10 at a concrete input. -/
theorem C10_deterministic_witness :
    calculate_heuristic exampleGraph 3 = calculate_heuristic exampleGraph 3 ∧
    pipeline exampleGraph 0 3 2 30 = pipeline exampleGraph 0 3 2 30 :=
  C10_deterministic exampleGraph exampleGraph 0 0 3 3 2 2 30 30 rfl rfl rfl rfl rfl

/-- Claim C1 counterexample: on `cycleGraph` (edges 0→1 and 1→0, both weight
1) with source 0, destination 1, k = 2, the edge-walks [0] and [0,1,0] are two
distinct 0→1 walks of costs 1 and 3, so min(k, #walks) = 2 and the claim
demands the emission of [1, 3]; the search instead terminates normally having
emitted only [1] — a destination pop is never expanded, so walks revisiting
the destination are never enumerated. -/
theorem C1_counterexample :
    (pipeline cycleGraph 0 1 2 30).2 = true ∧
    (pipeline cycleGraph 0 1 2 30).1.out = [1] ∧
    isWalk cycleGraph 0 1 [0] = true ∧
    isWalk cycleGraph 0 1 [0, 1, 0] = true ∧
    ([0] : List ℕ) ≠ [0, 1, 0] ∧
    walkCost cycleGraph [0] = 1 ∧ walkCost cycleGraph [0, 1, 0] = 3 := by
  refine ⟨by decide, by decide, by decide, by decide, by decide, ?_, ?_⟩ <;>
    norm_num [walkCost, cycleGraph, readGraphModel, getE]

/-! ## Divergence of the search on a reachable cycle -/

theorem c8_adj0 : (getV (calculate_heuristic c8Graph 2) 0).outgoing = [0] := by decide

theorem c8_adj1 : (getV (calculate_heuristic c8Graph 2) 1).outgoing = [1] := by decide

theorem c8_tov0 : (getE (calculate_heuristic c8Graph 2) 0).tov = 1 := by decide

theorem c8_tov1 : (getE (calculate_heuristic c8Graph 2) 1).tov = 0 := by decide

/-- On `c8Graph` every reachable search state keeps a non-empty queue whose
elements all sit on the 0↔1 cycle, so the loop never exits. -/
theorem c8_loop_false :
    ∀ (fuel : ℕ) (st : SState), st.graph = calculate_heuristic c8Graph 2 →
      st.queue ≠ [] → (∀ e ∈ st.queue, e.vertex_index ≤ 1) →
      (searchLoop 2 fuel st).2 = false
  | 0, _, _, _, _ => rfl
  | fuel + 1, st, hg, hne, hmem => by
    cases hpop : popMin st.queue with
    | none => exact absurd ((popMinBy_eq_none _ _).mp hpop) hne
    | some p =>
      obtain ⟨e, q'⟩ := p
      have hepop : popMinBy QueueElement.priority st.queue = some (e, q') := hpop
      have he : e.vertex_index ≤ 1 := hmem e (popMinBy_self_mem _ _ _ _ hepop)
      have hne2 : ¬ e.vertex_index = 2 := by omega
      have hq' : ∀ x ∈ q', x.vertex_index ≤ 1 := fun x hx =>
        hmem x (popMinBy_mem _ _ _ _ hepop x hx)
      show (searchLoop 2 (fuel + 1) st).2 = false
      simp only [searchLoop]
      rw [show popMin st.queue = some (e, q') from hpop]
      simp only [if_neg hne2]
      apply c8_loop_false fuel
      · exact hg
      · rcases Nat.le_one_iff_eq_zero_or_eq_one.mp he with h0 | h1
        · simp [expandEdges, hg, h0, c8_adj0]
        · simp [expandEdges, hg, h1, c8_adj1]
      · intro x hx
        simp only [expandEdges] at hx
        rcases List.mem_append.mp hx with hx | hx
        · exact hq' x hx
        · rcases Nat.le_one_iff_eq_zero_or_eq_one.mp he with h0 | h1
          · rw [hg, h0, c8_adj0] at hx
            simp only [List.map_cons, List.map_nil, List.mem_singleton] at hx
            subst hx
            simp [hg, c8_tov0]
          · rw [hg, h1, c8_adj1] at hx
            simp only [List.map_cons, List.map_nil, List.mem_singleton] at hx
            subst hx
            simp [hg, c8_tov1]

/-- Claim C8 counterexample: with source 0, destination 2 and k = 1 on
`c8Graph` the destination is unreachable from the source, yet the queue never
empties and the search never terminates: elements keep circulating on the
0→1→0 cycle.  The claim's "the search's queue empties before k answers are
produced, the search terminates normally" is false. -/
theorem C8_counterexample : SearchDiverges := by
  intro fuel
  show (searchLoop 2 fuel (initS (calculate_heuristic c8Graph 2) 0 1)).2 = false
  apply c8_loop_false fuel
  · rfl
  · simp [initS]
  · intro e he
    simp only [initS, List.mem_singleton] at he
    subst he
    exact Nat.zero_le 1

/-! ## Shape preservation -/

theorem sameShape_refl (g : Graph) : SameShape g g :=
  ⟨rfl, rfl, fun _ => ⟨rfl, rfl⟩⟩

theorem sameShape_trans {g0 g1 g2 : Graph} (h1 : SameShape g0 g1)
    (h2 : SameShape g1 g2) : SameShape g0 g2 :=
  ⟨h2.1.trans h1.1, h2.2.1.trans h1.2.1, fun v =>
    ⟨(h2.2.2 v).1.trans (h1.2.2 v).1, (h2.2.2 v).2.trans (h1.2.2 v).2⟩⟩

theorem getE_congr {g0 g : Graph} (h : SameShape g0 g) (i : ℕ) : getE g i = getE g0 i := by
  unfold getE; rw [h.2.1]

theorem getV_setSP (g : Graph) (v : ℕ) (q : WithTop ℚ) (u : ℕ) :
    getV (setSP g v q) u =
      if u = v ∧ v < g.vertices.length then { getV g v with shortest_path := q }
      else getV g u := by
  unfold getV setSP
  by_cases hu : u = v
  · subst hu
    by_cases hv : u < g.vertices.length
    · rw [if_pos ⟨rfl, hv⟩, List.getD_eq_getElem?_getD, List.getElem?_set_self',
        List.getElem?_eq_getElem hv]
      simp [getV, List.getD_eq_getElem?_getD, List.getElem?_eq_getElem hv]
    · rw [if_neg (fun h => hv h.2), List.set_eq_of_length_le (Nat.le_of_not_lt hv)]
  · rw [if_neg (fun h => hu h.1), List.getD_eq_getElem?_getD, List.getD_eq_getElem?_getD,
      List.getElem?_set_ne (fun h => hu h.symm)]

theorem setSP_shape (g : Graph) (v : ℕ) (q : WithTop ℚ) :
    SameShape g (setSP g v q) := by
  refine ⟨?_, rfl, ?_⟩
  · simp [setSP]
  · intro u
    rw [getV_setSP]
    by_cases h : u = v ∧ v < g.vertices.length
    · rw [if_pos h]; obtain ⟨hu, _⟩ := h; subst hu; exact ⟨rfl, rfl⟩
    · rw [if_neg h]; exact ⟨rfl, rfl⟩

theorem dist_setSP_self (g : Graph) (v : ℕ) (q : WithTop ℚ)
    (h : v < g.vertices.length) : distTo (setSP g v q) v = q := by
  unfold distTo; rw [getV_setSP]; simp [h]

theorem dist_setSP_ne (g : Graph) (v : ℕ) (q : WithTop ℚ) (u : ℕ) (h : u ≠ v) :
    distTo (setSP g v q) u = distTo g u := by
  unfold distTo; rw [getV_setSP]; simp [h]

/-! ## Walk lemmas -/

theorem isWalk_nil {g : Graph} {s d : ℕ} : isWalk g s d [] = true ↔ s = d := by
  simp [isWalk]

theorem isWalk_cons {g : Graph} {s d i : ℕ} {w : List ℕ} :
    isWalk g s d (i :: w) = true ↔
      i < g.edges.length ∧ (getE g i).fro = s ∧ isWalk g (getE g i).tov d w = true := by
  simp [isWalk, and_assoc]

theorem walkCost_nil (g : Graph) : walkCost g [] = 0 := rfl

theorem walkCost_cons (g : Graph) (i : ℕ) (w : List ℕ) :
    walkCost g (i :: w) = (getE g i).weight + walkCost g w := by
  simp [walkCost]

theorem walkCost_append (g : Graph) (w1 w2 : List ℕ) :
    walkCost g (w1 ++ w2) = walkCost g w1 + walkCost g w2 := by
  simp [walkCost]

theorem getE_mem {g : Graph} {i : ℕ} (h : i < g.edges.length) : getE g i ∈ g.edges := by
  unfold getE
  rw [List.getD_eq_getElem?_getD, List.getElem?_eq_getElem h]
  exact List.getElem_mem _

theorem walkCost_nonneg {g : Graph} (hnn : NonnegWeights g) :
    ∀ {s d : ℕ} (w : List ℕ), isWalk g s d w = true → 0 ≤ walkCost g w := by
  intro s d w
  induction w generalizing s with
  | nil => intro _; simp [walkCost_nil]
  | cons i rest ih =>
    intro hw
    obtain ⟨hi, _, hrest⟩ := isWalk_cons.mp hw
    rw [walkCost_cons]
    have h1 : 0 ≤ (getE g i).weight := hnn _ (getE_mem hi)
    have h2 : 0 ≤ walkCost g rest := ih hrest
    linarith

theorem isWalk_append {g : Graph} {s mid d : ℕ} :
    ∀ {w1 : List ℕ}, isWalk g s mid w1 = true → ∀ {w2 : List ℕ},
      isWalk g mid d w2 = true → isWalk g s d (w1 ++ w2) = true := by
  intro w1
  induction w1 generalizing s with
  | nil =>
    intro h1 w2 h2
    obtain rfl := isWalk_nil.mp h1
    exact h2
  | cons i rest ih =>
    intro h1 w2 h2
    obtain ⟨hi, hfro, hrest⟩ := isWalk_cons.mp h1
    exact isWalk_cons.mpr ⟨hi, hfro, ih hrest h2⟩

theorem isWalk_append_split {g : Graph} {s d : ℕ} :
    ∀ {w1 w2 : List ℕ}, isWalk g s d (w1 ++ w2) = true →
      ∃ mid, isWalk g s mid w1 = true ∧ isWalk g mid d w2 = true := by
  intro w1
  induction w1 generalizing s with
  | nil =>
    intro w2 h
    exact ⟨s, isWalk_nil.mpr rfl, h⟩
  | cons i rest ih =>
    intro w2 h
    obtain ⟨hi, hfro, hrest⟩ := isWalk_cons.mp h
    obtain ⟨mid, hm1, hm2⟩ := ih hrest
    exact ⟨mid, isWalk_cons.mpr ⟨hi, hfro, hm1⟩, hm2⟩

theorem isWalk_end_unique {g : Graph} :
    ∀ {w : List ℕ} {s a b : ℕ}, isWalk g s a w = true → isWalk g s b w = true → a = b := by
  intro w
  induction w with
  | nil =>
    intro s a b ha hb
    obtain rfl := isWalk_nil.mp ha
    exact isWalk_nil.mp hb
  | cons i rest ih =>
    intro s a b ha hb
    obtain ⟨_, _, ha⟩ := isWalk_cons.mp ha
    obtain ⟨_, _, hb⟩ := isWalk_cons.mp hb
    exact ih ha hb

/-- Suffix-splitting: a walk from an unvisited vertex to the (visited)
destination crosses the visited boundary: some edge `i` goes from an unvisited
vertex straight into the visited set, followed by a real walk, and that
crossing is no more expensive than the whole walk. -/
theorem walk_split {g : Graph} (hnn : NonnegWeights g) (vis : List ℕ) (d : ℕ)
    (hd : d ∈ vis) :
    ∀ (w : List ℕ) (v : ℕ), isWalk g v d w = true → v ∉ vis →
      ∃ i c2, (getE g i).fro ∉ vis ∧ i < g.edges.length ∧ (getE g i).tov ∈ vis ∧
        (∃ w2, isWalk g (getE g i).tov d w2 = true ∧ walkCost g w2 = c2) ∧
        (getE g i).weight + c2 ≤ walkCost g w := by
  intro w
  induction w with
  | nil =>
    intro v hw hv
    obtain rfl := isWalk_nil.mp hw
    exact absurd hd hv
  | cons i rest ih =>
    intro v hw hv
    obtain ⟨hi, hfro, hrest⟩ := isWalk_cons.mp hw
    by_cases htv : (getE g i).tov ∈ vis
    · refine ⟨i, walkCost g rest, ?_, hi, htv, ⟨rest, hrest, rfl⟩, ?_⟩
      · rw [hfro]; exact hv
      · rw [walkCost_cons]
    · obtain ⟨i', c2, h1, h2, h3, h4, h5⟩ := ih (getE g i).tov hrest htv
      refine ⟨i', c2, h1, h2, h3, h4, ?_⟩
      rw [walkCost_cons]
      have hwi : 0 ≤ (getE g i).weight := hnn _ (getE_mem hi)
      linarith

/-! ## Elementary properties of the relaxation loop -/

theorem relaxEdges_shape (dval : ℚ) (vis : List ℕ) :
    ∀ (L : List ℕ) (g : Graph) (q : List QueueElement),
      SameShape g (relaxEdges dval vis g q L).1
  | [], g, q => sameShape_refl g
  | i :: rest, g, q => by
    simp only [relaxEdges]
    by_cases h1 : (getE g i).fro ∈ vis
    · rw [if_pos h1]; exact relaxEdges_shape dval vis rest g q
    · rw [if_neg h1]
      by_cases h2 : ((qadd dval (getE g i).weight : ℚ) : WithTop ℚ) < distTo g (getE g i).fro
      · rw [if_pos h2]
        exact sameShape_trans (setSP_shape g _ _) (relaxEdges_shape dval vis rest _ _)
      · rw [if_neg h2]; exact relaxEdges_shape dval vis rest g q

theorem relaxEdges_queue (dval : ℚ) (vis : List ℕ) :
    ∀ (L : List ℕ) (g : Graph) (q : List QueueElement),
      ∃ ext, (relaxEdges dval vis g q L).2 = q ++ ext ∧ ext.length ≤ L.length
  | [], g, q => ⟨[], by simp [relaxEdges]⟩
  | i :: rest, g, q => by
    simp only [relaxEdges]
    by_cases h1 : (getE g i).fro ∈ vis
    · rw [if_pos h1]
      obtain ⟨ext, he, hl⟩ := relaxEdges_queue dval vis rest g q
      exact ⟨ext, he, Nat.le_succ_of_le hl⟩
    · rw [if_neg h1]
      by_cases h2 : ((qadd dval (getE g i).weight : ℚ) : WithTop ℚ) < distTo g (getE g i).fro
      · rw [if_pos h2]
        obtain ⟨ext, he, hl⟩ := relaxEdges_queue dval vis rest
          (setSP g (getE g i).fro ((qadd dval (getE g i).weight : ℚ) : WithTop ℚ))
          (q ++ [⟨(getE g i).fro, ((qadd dval (getE g i).weight : ℚ) : WithTop ℚ),
            qadd dval (getE g i).weight⟩])
        refine ⟨⟨(getE g i).fro, ((qadd dval (getE g i).weight : ℚ) : WithTop ℚ),
          qadd dval (getE g i).weight⟩ :: ext, ?_, ?_⟩
        · rw [he, List.append_assoc]; rfl
        · simpa using Nat.succ_le_succ hl
      · rw [if_neg h2]
        obtain ⟨ext, he, hl⟩ := relaxEdges_queue dval vis rest g q
        exact ⟨ext, he, Nat.le_succ_of_le hl⟩

/-- Removing a freshly visited vertex from the unvisited-degree sum. -/
theorem sum_ite_erase (f : ℕ → ℕ) {v : ℕ} {vis : List ℕ} (hvvis : v ∉ vis) :
    ∀ {l : List ℕ}, l.Nodup → v ∈ l →
      (l.map fun x => if x ∈ vis then 0 else f x).sum =
        f v + (l.map fun x => if x ∈ v :: vis then 0 else f x).sum := by
  intro l
  induction l with
  | nil => intro _ hv; cases hv
  | cons a l2 ih =>
    intro hnd hv
    have hal2 : a ∉ l2 := (List.nodup_cons.mp hnd).1
    have hnd2 : l2.Nodup := (List.nodup_cons.mp hnd).2
    by_cases hav : a = v
    · subst hav
      have hvl2 : a ∉ l2 := hal2
      have htail : (l2.map fun x => if x ∈ a :: vis then 0 else f x) =
          l2.map fun x => if x ∈ vis then 0 else f x := by
        apply List.map_congr_left
        intro x hx
        have hxa : x ≠ a := fun h => hvl2 (h ▸ hx)
        simp [List.mem_cons, hxa]
      simp only [List.map_cons, List.sum_cons, htail]
      simp [hvvis]
    · have hv2 : v ∈ l2 := by
        rcases List.mem_cons.mp hv with h | h
        · exact absurd h.symm hav
        · exact h
      have ihh := ih hnd2 hv2
      have hhead : (if a ∈ v :: vis then 0 else f a) = if a ∈ vis then 0 else f a := by
        simp [List.mem_cons, hav]
      simp only [List.map_cons, List.sum_cons, hhead, ihh]
      omega

theorem getV_oob {g : Graph} {v : ℕ} (h : g.vertices.length ≤ v) :
    getV g v = initial_vertex := by
  unfold getV
  exact List.getD_eq_default _ _ h

/-- The unvisited-degree sum only depends on the shape of the graph. -/
theorem potSum_congr {g g2 : Graph} (h : SameShape g g2) (vis : List ℕ) :
    ((List.range g2.vertices.length).map
      fun v => if v ∈ vis then 0 else (getV g2 v).incoming.length).sum =
    ((List.range g.vertices.length).map
      fun v => if v ∈ vis then 0 else (getV g v).incoming.length).sum := by
  rw [h.1]
  apply congrArg
  apply List.map_congr_left
  intro x _
  rw [(h.2.2 x).1]

/-- The preprocessing loop empties its queue within `heurPot` iterations. -/
theorem heurLoop_drains : ∀ (fuel : ℕ) (st : HState), heurPot st ≤ fuel →
    (heurLoop fuel st).queue = []
  | 0, st, h => by
    have h0 : st.queue.length = 0 := by
      unfold heurPot at h; omega
    simpa [heurLoop] using List.length_eq_zero.mp h0
  | fuel + 1, st, h => by
    cases hpop : popMin st.queue with
    | none =>
      simp only [heurLoop, hpop]
      exact (popMinBy_eq_none _ _).mp hpop
    | some p =>
      obtain ⟨e, q'⟩ := p
      have hlen : st.queue.length = q'.length + 1 := by
        simpa using (popMinBy_perm _ _ _ _ hpop).length_eq
      simp only [heurLoop, hpop]
      by_cases hvis : e.vertex_index ∈ st.visited
      · rw [if_pos hvis]
        apply heurLoop_drains fuel
        unfold heurPot at h ⊢
        simp only at h ⊢
        omega
      · rw [if_neg hvis]
        apply heurLoop_drains fuel
        obtain ⟨ext, hq2, hql⟩ := relaxEdges_queue e.path_length
          (e.vertex_index :: st.visited) (getV st.graph e.vertex_index).incoming st.graph q'
        have hshape := relaxEdges_shape e.path_length
          (e.vertex_index :: st.visited) (getV st.graph e.vertex_index).incoming st.graph q'
        have hq2len : (relaxEdges e.path_length (e.vertex_index :: st.visited) st.graph q'
            (getV st.graph e.vertex_index).incoming).2.length ≤
            q'.length + (getV st.graph e.vertex_index).incoming.length := by
          rw [hq2]; simp; omega
        by_cases hvr : e.vertex_index < st.graph.vertices.length
        · have hsum := sum_ite_erase (fun x => (getV st.graph x).incoming.length) hvis
            (List.nodup_range _) (List.mem_range.mpr hvr)
          simp only at hsum
          unfold heurPot at h ⊢
          simp only at h ⊢
          rw [potSum_congr hshape]
          omega
        · have hL : (getV st.graph e.vertex_index).incoming = [] := by
            rw [getV_oob (le_of_not_lt hvr)]; rfl
          have hsame : ((List.range st.graph.vertices.length).map
              fun x => if x ∈ e.vertex_index :: st.visited then 0
                else (getV st.graph x).incoming.length).sum =
              ((List.range st.graph.vertices.length).map
              fun x => if x ∈ st.visited then 0
                else (getV st.graph x).incoming.length).sum := by
            apply congrArg
            apply List.map_congr_left
            intro x hx
            have hxv : x ≠ e.vertex_index :=
              Nat.ne_of_lt (lt_of_lt_of_le (List.mem_range.mp hx) (le_of_not_lt hvr))
            simp [List.mem_cons, hxv]
          unfold heurPot at h ⊢
          simp only at h ⊢
          rw [potSum_congr hshape, hsame, hL]
          simp only [relaxEdges]
          omega

/-- Invariant preservation through the whole relaxation loop over the
incoming edges of the freshly finalised vertex `v` (whose exact distance is
`dval`).  All conditions are stated over the immutable input graph `g0`. -/
theorem relaxEdges_inv (g0 : Graph) (d : ℕ) (hwf : WellFormed g0) (vis' : List ℕ)
    (v : ℕ) (hv : v ∈ vis') (dval : ℚ)
    (hopt : IsOptAt g0 d v ((dval : ℚ) : WithTop ℚ)) :
    ∀ (L : List ℕ) (g1 : Graph) (q1 : List QueueElement),
      SameShape g0 g1 →
      distTo g1 v = ((dval : ℚ) : WithTop ℚ) →
      (∀ x, distTo g1 x = ⊤ ∨
        ∃ w, isWalk g0 x d w = true ∧ distTo g1 x = ((walkCost g0 w : ℚ) : WithTop ℚ)) →
      (∀ e ∈ q1, e.priority = ((e.path_length : ℚ) : WithTop ℚ) ∧
        (∃ w, isWalk g0 e.vertex_index d w = true ∧ walkCost g0 w = e.path_length) ∧
        distTo g1 e.vertex_index ≤ ((e.path_length : ℚ) : WithTop ℚ)) →
      (∀ x, ¬ x ∈ vis' → distTo g1 x ≠ ⊤ →
        ∃ e ∈ q1, e.vertex_index = x ∧ e.priority ≤ distTo g1 x) →
      (∀ i ∈ L, i < g0.edges.length ∧ (getE g0 i).tov = v) →
      (∀ x, distTo (relaxEdges dval vis' g1 q1 L).1 x ≤ distTo g1 x) ∧
      (∀ x ∈ vis', distTo (relaxEdges dval vis' g1 q1 L).1 x = distTo g1 x) ∧
      (∀ x, distTo (relaxEdges dval vis' g1 q1 L).1 x = ⊤ ∨
        ∃ w, isWalk g0 x d w = true ∧
          distTo (relaxEdges dval vis' g1 q1 L).1 x = ((walkCost g0 w : ℚ) : WithTop ℚ)) ∧
      (∀ e ∈ (relaxEdges dval vis' g1 q1 L).2,
        e.priority = ((e.path_length : ℚ) : WithTop ℚ) ∧
        (∃ w, isWalk g0 e.vertex_index d w = true ∧ walkCost g0 w = e.path_length) ∧
        distTo (relaxEdges dval vis' g1 q1 L).1 e.vertex_index ≤
          ((e.path_length : ℚ) : WithTop ℚ)) ∧
      (∀ x, ¬ x ∈ vis' → distTo (relaxEdges dval vis' g1 q1 L).1 x ≠ ⊤ →
        ∃ e ∈ (relaxEdges dval vis' g1 q1 L).2, e.vertex_index = x ∧
          e.priority ≤ distTo (relaxEdges dval vis' g1 q1 L).1 x) ∧
      (∀ i ∈ L, (getE g0 i).fro ∉ vis' →
        distTo (relaxEdges dval vis' g1 q1 L).1 (getE g0 i).fro ≤
          (((getE g0 i).weight : ℚ) : WithTop ℚ) + ((dval : ℚ) : WithTop ℚ)) := by
  intro L
  induction L with
  | nil =>
    intro g1 q1 hshape hdv hsound helems hqwit hL
    refine ⟨fun x => le_refl _, fun x _ => rfl, hsound, helems, hqwit, fun i hi => absurd hi (List.not_mem_nil i)⟩
  | cons i rest ih =>
    intro g1 q1 hshape hdv hsound helems hqwit hL
    have hi := hL i (List.mem_cons_self i rest)
    have hLrest : ∀ j ∈ rest, j < g0.edges.length ∧ (getE g0 j).tov = v :=
      fun j hj => hL j (List.mem_cons_of_mem i hj)
    simp only [relaxEdges, getE_congr hshape]
    by_cases hfro : (getE g0 i).fro ∈ vis'
    · rw [if_pos hfro]
      obtain ⟨c2, c3, c4, c5, c6, c7⟩ := ih g1 q1 hshape hdv hsound helems hqwit hLrest
      refine ⟨c2, c3, c4, c5, c6, ?_⟩
      intro j hj hjfro
      rcases List.mem_cons.mp hj with rfl | hj
      · exact absurd hfro hjfro
      · exact c7 j hj hjfro
    · rw [if_neg hfro]
      have hvfro : v ≠ (getE g0 i).fro := fun h => hfro (h ▸ hv)
      have hfrolt : (getE g0 i).fro < g1.vertices.length := by
        rw [hshape.1]
        exact (hwf.1 _ (getE_mem hi.1)).1
      have hpl : qadd dval (getE g0 i).weight = dval + (getE g0 i).weight :=
        qadd_eq dval (getE g0 i).weight
      obtain ⟨wv, hwv, hwvc⟩ := hopt.1
      have hdvc : dval = walkCost g0 wv := by
        have := hwvc
        exact_mod_cast this
      have hwalkfro : isWalk g0 (getE g0 i).fro d (i :: wv) = true := by
        refine isWalk_cons.mpr ⟨hi.1, rfl, ?_⟩
        rw [hi.2]
        exact hwv
      have hcostfro : walkCost g0 (i :: wv) = qadd dval (getE g0 i).weight := by
        rw [walkCost_cons, hpl, ← hdvc, add_comm]
      by_cases hlt : ((qadd dval (getE g0 i).weight : ℚ) : WithTop ℚ) < distTo g1 (getE g0 i).fro
      · rw [if_pos hlt]
        have hmono1 : ∀ x, distTo (setSP g1 (getE g0 i).fro
            ((qadd dval (getE g0 i).weight : ℚ) : WithTop ℚ)) x ≤ distTo g1 x := by
          intro x
          by_cases hx : x = (getE g0 i).fro
          · subst hx
            rw [dist_setSP_self _ _ _ hfrolt]
            exact le_of_lt hlt
          · rw [dist_setSP_ne _ _ _ _ hx]
        have hdfro : distTo (setSP g1 (getE g0 i).fro
            ((qadd dval (getE g0 i).weight : ℚ) : WithTop ℚ)) (getE g0 i).fro =
            ((qadd dval (getE g0 i).weight : ℚ) : WithTop ℚ) :=
          dist_setSP_self _ _ _ hfrolt
        obtain ⟨c2, c3, c4, c5, c6, c7⟩ := ih
          (setSP g1 (getE g0 i).fro ((qadd dval (getE g0 i).weight : ℚ) : WithTop ℚ))
          (q1 ++ [⟨(getE g0 i).fro, ((qadd dval (getE g0 i).weight : ℚ) : WithTop ℚ),
            qadd dval (getE g0 i).weight⟩])
          (sameShape_trans hshape (setSP_shape g1 _ _))
          (by rw [dist_setSP_ne _ _ _ _ hvfro]; exact hdv)
          (by
            intro x
            by_cases hx : x = (getE g0 i).fro
            · subst hx
              rw [dist_setSP_self _ _ _ hfrolt]
              exact Or.inr ⟨i :: wv, hwalkfro, by rw [hcostfro]⟩
            · rw [dist_setSP_ne _ _ _ _ hx]
              exact hsound x)
          (by
            intro e he
            rcases List.mem_append.mp he with he | he
            · obtain ⟨h1, h2, h3⟩ := helems e he
              exact ⟨h1, h2, le_trans (hmono1 _) h3⟩
            · rcases List.mem_singleton.mp he with rfl
              refine ⟨rfl, ⟨i :: wv, hwalkfro, hcostfro⟩, ?_⟩
              rw [hdfro])
          (by
            intro x hx hxt
            by_cases hxf : x = (getE g0 i).fro
            · subst hxf
              refine ⟨⟨(getE g0 i).fro, ((qadd dval (getE g0 i).weight : ℚ) : WithTop ℚ),
                qadd dval (getE g0 i).weight⟩, List.mem_append_right _ (List.mem_singleton_self _), rfl, ?_⟩
              rw [hdfro]
            · rw [dist_setSP_ne _ _ _ _ hxf] at hxt ⊢
              obtain ⟨e, he, h1, h2⟩ := hqwit x hx hxt
              exact ⟨e, List.mem_append_left _ he, h1, h2⟩)
          hLrest
        refine ⟨?_, ?_, c4, c5, c6, ?_⟩
        · intro x
          exact le_trans (c2 x) (hmono1 x)
        · intro x hx
          rw [c3 x hx, dist_setSP_ne _ _ _ _ (fun h => hfro (by rw [← h]; exact hx))]
        · intro j hj hjfro
          rcases List.mem_cons.mp hj with rfl | hj
          · calc distTo (relaxEdges dval vis' _ _ rest).1 (getE g0 j).fro
                ≤ _ := c2 (getE g0 j).fro
              _ = ((qadd dval (getE g0 j).weight : ℚ) : WithTop ℚ) := hdfro
              _ = (((getE g0 j).weight : ℚ) : WithTop ℚ) + ((dval : ℚ) : WithTop ℚ) := by
                  rw [hpl]
                  push_cast
                  rw [add_comm]
          · exact c7 j hj hjfro
      · rw [if_neg hlt]
        obtain ⟨c2, c3, c4, c5, c6, c7⟩ := ih g1 q1 hshape hdv hsound helems hqwit hLrest
        refine ⟨c2, c3, c4, c5, c6, ?_⟩
        intro j hj hjfro
        rcases List.mem_cons.mp hj with rfl | hj
        · calc distTo (relaxEdges dval vis' g1 q1 rest).1 (getE g0 j).fro
              ≤ distTo g1 (getE g0 j).fro := c2 _
            _ ≤ ((qadd dval (getE g0 j).weight : ℚ) : WithTop ℚ) := le_of_not_lt hlt
            _ = (((getE g0 j).weight : ℚ) : WithTop ℚ) + ((dval : ℚ) : WithTop ℚ) := by
                rw [hpl]
                push_cast
                rw [add_comm]
        · exact c7 j hj hjfro

/-- When the loop pops an unvisited element, that element's `path_length` is
the exact shortest distance from its vertex to the destination, and the
`shortest_path` field already holds it. -/
theorem heur_pop_opt {g0 : Graph} {d : ℕ} (hnn : NonnegWeights g0) {st : HState}
    (hinv : HInv g0 d st) {e : QueueElement} {q' : List QueueElement}
    (hpop : popMin st.queue = some (e, q')) (hvis : ¬ e.vertex_index ∈ st.visited) :
    IsOptAt g0 d e.vertex_index ((e.path_length : ℚ) : WithTop ℚ) ∧
    distTo st.graph e.vertex_index = ((e.path_length : ℚ) : WithTop ℚ) ∧
    (st.visited = [] → e.vertex_index = d) := by
  have hemem : e ∈ st.queue := popMinBy_self_mem _ _ _ _ hpop
  obtain ⟨hepri, ⟨w0, hw0, hw0c⟩, hedist⟩ := hinv.elems e hemem
  have hmin : ∀ w, isWalk g0 e.vertex_index d w = true →
      e.path_length ≤ walkCost g0 w := by
    intro w hw
    by_cases hempty : st.visited = []
    · obtain ⟨hq, hdd, hrest⟩ := hinv.start0 hempty
      rw [hq] at hpop
      have hone : popMin [(⟨d, 0, 0⟩ : QueueElement)] = some (⟨d, 0, 0⟩, []) := by
        simp [popMin, popMinBy]
      rw [hone] at hpop
      have he' : e = ⟨d, 0, 0⟩ := by
        cases hpop
        rfl
      subst he'
      show (0 : ℚ) ≤ walkCost g0 w
      exact walkCost_nonneg hnn w hw
    · have hd : d ∈ st.visited := hinv.dvis hempty
      obtain ⟨i, c2, h1, h2, h3, ⟨w2, hw2, hc2⟩, h5⟩ :=
        walk_split hnn st.visited d hd w e.vertex_index hw hvis
      have hfront := hinv.frontier i h2 h1 h3
      have htov := (hinv.vopt _ h3).2 w2 hw2
      rw [hc2] at htov
      have hfro : distTo st.graph (getE g0 i).fro ≤
          (((getE g0 i).weight + c2 : ℚ) : WithTop ℚ) := by
        calc distTo st.graph (getE g0 i).fro
            ≤ (((getE g0 i).weight : ℚ) : WithTop ℚ) + distTo st.graph (getE g0 i).tov := hfront
          _ ≤ (((getE g0 i).weight : ℚ) : WithTop ℚ) + ((c2 : ℚ) : WithTop ℚ) := by
              exact add_le_add_left htov _
          _ = (((getE g0 i).weight + c2 : ℚ) : WithTop ℚ) := by
              rw [WithTop.coe_add]
      have hfrot : distTo st.graph (getE g0 i).fro ≠ ⊤ :=
        ne_top_of_le_ne_top (WithTop.coe_ne_top) hfro
      obtain ⟨e2, he2mem, he2v, he2le⟩ := hinv.qwit _ h1 hfrot
      have hemin := popMinBy_min _ _ _ _ hpop e2 he2mem
      have : e.priority ≤ (((getE g0 i).weight + c2 : ℚ) : WithTop ℚ) :=
        le_trans hemin (le_trans he2le hfro)
      rw [hepri] at this
      have h6 : e.path_length ≤ (getE g0 i).weight + c2 := by exact_mod_cast this
      linarith
  have hopt : IsOptAt g0 d e.vertex_index ((e.path_length : ℚ) : WithTop ℚ) := by
    refine ⟨⟨w0, hw0, by rw [hw0c]⟩, ?_⟩
    intro w hw
    exact_mod_cast hmin w hw
  refine ⟨hopt, ?_, ?_⟩
  · rcases hinv.sound e.vertex_index with h | ⟨w1, hw1, hd1⟩
    · rw [h] at hedist
      exact absurd (top_le_iff.mp hedist) WithTop.coe_ne_top
    · refine le_antisymm hedist ?_
      rw [hd1]
      exact_mod_cast hmin w1 hw1
  · intro hempty
    obtain ⟨hq, _, _⟩ := hinv.start0 hempty
    rw [hq] at hpop
    have hone : popMin [(⟨d, 0, 0⟩ : QueueElement)] = some (⟨d, 0, 0⟩, []) := by
      simp [popMin, popMinBy]
    rw [hone] at hpop
    cases hpop
    rfl

/-- The reverse-Dijkstra invariant is preserved by any number of loop
iterations. -/
theorem heurLoop_inv {g0 : Graph} {d : ℕ} (hwf : WellFormed g0) (hnn : NonnegWeights g0) :
    ∀ (fuel : ℕ) (st : HState), HInv g0 d st → HInv g0 d (heurLoop fuel st)
  | 0, _, hinv => hinv
  | fuel + 1, st, hinv => by
    cases hpop : popMin st.queue with
    | none => simp only [heurLoop, hpop]; exact hinv
    | some p =>
      obtain ⟨e, q'⟩ := p
      simp only [heurLoop, hpop]
      by_cases hvis : e.vertex_index ∈ st.visited
      · rw [if_pos hvis]
        apply heurLoop_inv hwf hnn fuel
        refine ⟨hinv.shape, hinv.sound, hinv.vopt, ?_, ?_, hinv.frontier, ?_, hinv.dvis⟩
        · intro e2 he2
          exact hinv.elems e2 (popMinBy_mem _ _ _ _ hpop e2 he2)
        · intro x hx hxt
          obtain ⟨e2, he2mem, he2v, he2le⟩ := hinv.qwit x hx hxt
          have hm : e2 ∈ e :: q' := (popMinBy_perm _ _ _ _ hpop).mem_iff.mp he2mem
          rcases List.mem_cons.mp hm with rfl | hmem
          · rw [← he2v] at hx
            exact absurd hvis hx
          · exact ⟨e2, hmem, he2v, he2le⟩
        · intro h
          rw [h] at hvis
          exact absurd hvis (List.not_mem_nil _)
      · rw [if_neg hvis]
        apply heurLoop_inv hwf hnn fuel
        obtain ⟨hopt, hdcur, hifempty⟩ := heur_pop_opt hnn hinv hpop hvis
        have hLprop : ∀ i ∈ (getV st.graph e.vertex_index).incoming,
            i < g0.edges.length ∧ (getE g0 i).tov = e.vertex_index := by
          intro i hi
          rw [(hinv.shape.2.2 e.vertex_index).1] at hi
          by_cases hvr : e.vertex_index < g0.vertices.length
          · rw [(hwf.2 e.vertex_index hvr).1] at hi
            have hf := List.mem_filter.mp hi
            refine ⟨List.mem_range.mp hf.1, ?_⟩
            have := hf.2
            simpa using this
          · rw [getV_oob (le_of_not_lt hvr)] at hi
            cases hi
        have hq'elems : ∀ e2 ∈ q', e2.priority = ((e2.path_length : ℚ) : WithTop ℚ) ∧
            (∃ w, isWalk g0 e2.vertex_index d w = true ∧ walkCost g0 w = e2.path_length) ∧
            distTo st.graph e2.vertex_index ≤ ((e2.path_length : ℚ) : WithTop ℚ) :=
          fun e2 he2 => hinv.elems e2 (popMinBy_mem _ _ _ _ hpop e2 he2)
        have hqwit' : ∀ x, ¬ x ∈ e.vertex_index :: st.visited → distTo st.graph x ≠ ⊤ →
            ∃ e2 ∈ q', e2.vertex_index = x ∧ e2.priority ≤ distTo st.graph x := by
          intro x hx hxt
          have hxv : x ≠ e.vertex_index := fun h => hx (h ▸ List.mem_cons_self _ _)
          have hxvis : ¬ x ∈ st.visited := fun h => hx (List.mem_cons_of_mem _ h)
          obtain ⟨e2, he2mem, he2v, he2le⟩ := hinv.qwit x hxvis hxt
          have hm : e2 ∈ e :: q' := (popMinBy_perm _ _ _ _ hpop).mem_iff.mp he2mem
          rcases List.mem_cons.mp hm with rfl | hmem
          · exact absurd he2v.symm hxv
          · exact ⟨e2, hmem, he2v, he2le⟩
        obtain ⟨c2, c3, c4, c5, c6, c7⟩ := relaxEdges_inv g0 d hwf
          (e.vertex_index :: st.visited) e.vertex_index (List.mem_cons_self _ _)
          e.path_length hopt
          (getV st.graph e.vertex_index).incoming st.graph q'
          hinv.shape hdcur hinv.sound hq'elems hqwit' hLprop
        refine ⟨?_, c4, ?_, c5, c6, ?_, ?_, ?_⟩
        · exact sameShape_trans hinv.shape (relaxEdges_shape _ _ _ _ _)
        · intro x hx
          rcases List.mem_cons.mp hx with h0 | hx2
          · subst h0
            rw [c3 _ (List.mem_cons_self _ _), hdcur]
            exact hopt
          · rw [c3 x (List.mem_cons_of_mem _ hx2)]
            exact hinv.vopt x hx2
        · intro i hi hfro htov
          rcases List.mem_cons.mp htov with hv0 | htail
          · have hvn : e.vertex_index < g0.vertices.length := by
              rw [← hv0]
              exact (hwf.1 _ (getE_mem hi)).2
            have hiL : i ∈ (getV st.graph e.vertex_index).incoming := by
              rw [(hinv.shape.2.2 e.vertex_index).1, (hwf.2 e.vertex_index hvn).1]
              refine List.mem_filter.mpr ⟨List.mem_range.mpr hi, ?_⟩
              simpa using hv0
            have hc7 := c7 i hiL hfro
            rw [hv0]
            rw [c3 e.vertex_index (List.mem_cons_self _ _), hdcur]
            exact hc7
          · have hfro2 : ¬ (getE g0 i).fro ∈ st.visited :=
              fun h => hfro (List.mem_cons_of_mem _ h)
            calc distTo (relaxEdges e.path_length (e.vertex_index :: st.visited) st.graph q'
                  (getV st.graph e.vertex_index).incoming).1 (getE g0 i).fro
                ≤ distTo st.graph (getE g0 i).fro := c2 _
              _ ≤ (((getE g0 i).weight : ℚ) : WithTop ℚ) + distTo st.graph (getE g0 i).tov :=
                  hinv.frontier i hi hfro2 htail
              _ = (((getE g0 i).weight : ℚ) : WithTop ℚ) +
                  distTo (relaxEdges e.path_length (e.vertex_index :: st.visited) st.graph q'
                    (getV st.graph e.vertex_index).incoming).1 (getE g0 i).tov := by
                  rw [c3 _ (List.mem_cons_of_mem _ htail)]
        · intro h
          exact absurd h (List.cons_ne_nil _ _)
        · intro _
          by_cases hempty : st.visited = []
          · rw [← hifempty hempty]
            exact List.mem_cons_self _ _
          · exact List.mem_cons_of_mem _ (hinv.dvis hempty)

theorem distTo_top_of_init {g0 : Graph} (hinit : InitDists g0) (v : ℕ) :
    distTo g0 v = ⊤ := by
  by_cases hv : v < g0.vertices.length
  · exact hinit v hv
  · unfold distTo
    rw [getV_oob (le_of_not_lt hv)]
    rfl

/-- The invariant holds at the start of `calculate_heuristic`. -/
theorem initH_inv {g0 : Graph} {d : ℕ} (hinit : InitDists g0)
    (hd : d < g0.vertices.length) : HInv g0 d (initH g0 d) := by
  refine ⟨setSP_shape g0 d 0, ?_, ?_, ?_, ?_, ?_, ?_, ?_⟩
  · intro v
    by_cases hv : v = d
    · subst hv
      right
      refine ⟨[], isWalk_nil.mpr rfl, ?_⟩
      rw [walkCost_nil]
      show distTo (setSP g0 v 0) v = _
      rw [dist_setSP_self _ _ _ hd]
      rfl
    · left
      show distTo (setSP g0 d 0) v = ⊤
      rw [dist_setSP_ne _ _ _ _ hv]
      exact distTo_top_of_init hinit v
  · intro v hv
    exact absurd hv (List.not_mem_nil v)
  · intro e he
    rcases List.mem_singleton.mp he with rfl
    refine ⟨rfl, ⟨[], isWalk_nil.mpr rfl, walkCost_nil g0⟩, ?_⟩
    show distTo (setSP g0 d 0) d ≤ _
    rw [dist_setSP_self _ _ _ hd]
    exact le_refl _
  · intro x _ hxt
    by_cases hx : x = d
    · subst hx
      refine ⟨⟨x, 0, 0⟩, List.mem_singleton_self _, rfl, ?_⟩
      show (0 : WithTop ℚ) ≤ distTo (setSP g0 x 0) x
      rw [dist_setSP_self _ _ _ hd]
    · exfalso
      apply hxt
      show distTo (setSP g0 d 0) x = ⊤
      rw [dist_setSP_ne _ _ _ _ hx]
      exact distTo_top_of_init hinit x
  · intro i _ _ htov
    exact absurd htov (List.not_mem_nil _)
  · intro _
    refine ⟨rfl, ?_, ?_⟩
    · show distTo (setSP g0 d 0) d = 0
      rw [dist_setSP_self _ _ _ hd]
    · intro v hv
      show distTo (setSP g0 d 0) v = ⊤
      rw [dist_setSP_ne _ _ _ _ hv]
      exact distTo_top_of_init hinit v
  · intro h
    exact absurd rfl h

/-- Once the queue is empty, every vertex with a walk to the destination has
been finalised. -/
theorem heur_final_reachable_visited {g0 : Graph} {d : ℕ} (hnn : NonnegWeights g0)
    {st : HState} (hinv : HInv g0 d st) (hq : st.queue = []) :
    ∀ v, (∃ w, isWalk g0 v d w = true) → v ∈ st.visited := by
  rintro v ⟨w, hw⟩
  by_contra hvis
  have hne : st.visited ≠ [] := by
    intro h
    obtain ⟨hqe, _, _⟩ := hinv.start0 h
    rw [hq] at hqe
    exact List.noConfusion hqe
  have hd : d ∈ st.visited := hinv.dvis hne
  obtain ⟨i, c2, h1, h2, h3, ⟨w2, hw2, hc2⟩, _⟩ :=
    walk_split hnn st.visited d hd w v hw hvis
  have hfront := hinv.frontier i h2 h1 h3
  have htov := (hinv.vopt _ h3).2 w2 hw2
  rw [hc2] at htov
  have hfro : distTo st.graph (getE g0 i).fro ≤
      (((getE g0 i).weight + c2 : ℚ) : WithTop ℚ) := by
    calc distTo st.graph (getE g0 i).fro
        ≤ (((getE g0 i).weight : ℚ) : WithTop ℚ) + distTo st.graph (getE g0 i).tov := hfront
      _ ≤ (((getE g0 i).weight : ℚ) : WithTop ℚ) + ((c2 : ℚ) : WithTop ℚ) :=
          add_le_add_left htov _
      _ = (((getE g0 i).weight + c2 : ℚ) : WithTop ℚ) := by rw [WithTop.coe_add]
  have hfrot : distTo st.graph (getE g0 i).fro ≠ ⊤ :=
    ne_top_of_le_ne_top WithTop.coe_ne_top hfro
  obtain ⟨e2, he2mem, _⟩ := hinv.qwit _ h1 hfrot
  rw [hq] at he2mem
  exact absurd he2mem (List.not_mem_nil _)

theorem initH_pot (g : Graph) (d : ℕ) : heurPot (initH g d) ≤ hFuel g := by
  show 1 + _ ≤ 1 + totalIn g
  have hcong := potSum_congr (setSP_shape g d (0 : WithTop ℚ)) []
  unfold initH
  simp only at hcong ⊢
  rw [hcong]
  unfold totalIn
  simp [List.not_mem_nil]

/-- Main specification of `calculate_heuristic` (shared lemma; the claim C2
theorem below is its direct corollary). -/
theorem calculate_heuristic_spec (g : Graph) (d : ℕ) (hwf : WellFormed g)
    (hnn : NonnegWeights g) (hinit : InitDists g) (hd : d < g.vertices.length) :
    ∀ v, (∀ w, isWalk g v d w = true →
        distTo (calculate_heuristic g d) v ≤ ((walkCost g w : ℚ) : WithTop ℚ)) ∧
      ((∃ w, isWalk g v d w = true) → ∃ w, isWalk g v d w = true ∧
        distTo (calculate_heuristic g d) v = ((walkCost g w : ℚ) : WithTop ℚ)) ∧
      (distTo (calculate_heuristic g d) v = ⊤ ↔ ¬ ∃ w, isWalk g v d w = true) := by
  have hinv := heurLoop_inv hwf hnn (hFuel g) (initH g d) (initH_inv hinit hd)
  have hq : (heurLoop (hFuel g) (initH g d)).queue = [] :=
    heurLoop_drains _ _ (initH_pot g d)
  have hvisited := heur_final_reachable_visited hnn hinv hq
  intro v
  refine ⟨?_, ?_, ?_, ?_⟩
  · intro w hw
    exact (hinv.vopt v (hvisited v ⟨w, hw⟩)).2 w hw
  · rintro ⟨w, hw⟩
    obtain ⟨w1, hw1, hc1⟩ := (hinv.vopt v (hvisited v ⟨w, hw⟩)).1
    exact ⟨w1, hw1, hc1⟩
  · rintro htop ⟨w, hw⟩
    obtain ⟨w1, hw1, hc1⟩ := (hinv.vopt v (hvisited v ⟨w, hw⟩)).1
    have : (⊤ : WithTop ℚ) = ((walkCost g w1 : ℚ) : WithTop ℚ) := by
      rw [← htop]; exact hc1
    exact absurd this.symm WithTop.coe_ne_top
  · intro hnw
    rcases hinv.sound v with h | ⟨w, hw, _⟩
    · exact h
    · exact absurd ⟨w, hw⟩ hnw

/-- Claim C2 (confirmed): for every well-formed graph with non-negative
weights and untouched distance fields, and every in-range destination, after
`calculate_heuristic` every vertex's `shortest_path` is a lower bound of every
walk cost to the destination, is attained by some walk whenever one exists,
and is `+∞` exactly when no walk exists (for the destination itself the empty
walk gives 0, so its field is exactly the minimum walk cost whenever walks
exist). -/
theorem C2_heuristic_exact (g : Graph) (d : ℕ) (hwf : WellFormed g)
    (hnn : NonnegWeights g) (hinit : InitDists g) (hd : d < g.vertices.length) :
    ∀ v, (∀ w, isWalk g v d w = true →
        distTo (calculate_heuristic g d) v ≤ ((walkCost g w : ℚ) : WithTop ℚ)) ∧
      ((∃ w, isWalk g v d w = true) → ∃ w, isWalk g v d w = true ∧
        distTo (calculate_heuristic g d) v = ((walkCost g w : ℚ) : WithTop ℚ)) ∧
      (distTo (calculate_heuristic g d) v = ⊤ ↔ ¬ ∃ w, isWalk g v d w = true) :=
  calculate_heuristic_spec g d hwf hnn hinit hd

/-- Witness for C2 on the concrete 4-vertex graph. -/
theorem C2_heuristic_exact_witness :
    WellFormed exampleGraph ∧ NonnegWeights exampleGraph ∧ InitDists exampleGraph ∧
    3 < exampleGraph.vertices.length ∧
    (∀ v, (∀ w, isWalk exampleGraph v 3 w = true →
        distTo (calculate_heuristic exampleGraph 3) v ≤
          ((walkCost exampleGraph w : ℚ) : WithTop ℚ)) ∧
      ((∃ w, isWalk exampleGraph v 3 w = true) → ∃ w, isWalk exampleGraph v 3 w = true ∧
        distTo (calculate_heuristic exampleGraph 3) v =
          ((walkCost exampleGraph w : ℚ) : WithTop ℚ)) ∧
      (distTo (calculate_heuristic exampleGraph 3) v = ⊤ ↔
        ¬ ∃ w, isWalk exampleGraph v 3 w = true)) :=
  ⟨by decide, by decide, by decide, by decide,
    C2_heuristic_exact exampleGraph 3 (by decide) (by decide) (by decide) (by decide)⟩

/-! ## Transfer along SameShape, and facts about the computed heuristic -/

theorem isWalk_congr {g0 g1 : Graph} (h : SameShape g0 g1) :
    ∀ (s d : ℕ) (w : List ℕ), isWalk g1 s d w = isWalk g0 s d w := by
  intro s d w
  induction w generalizing s with
  | nil => rfl
  | cons i rest ih =>
    show isWalk g1 s d (i :: rest) = isWalk g0 s d (i :: rest)
    simp only [isWalk, getE_congr h, h.2.1, ih]

theorem walkCost_congr {g0 g1 : Graph} (h : SameShape g0 g1) (w : List ℕ) :
    walkCost g1 w = walkCost g0 w := by
  unfold walkCost
  apply congrArg
  apply List.map_congr_left
  intro i _
  rw [getE_congr h]

theorem dAvoid_congr {g0 g1 : Graph} (h : SameShape g0 g1) (d : ℕ) :
    ∀ (s : ℕ) (w : List ℕ), dAvoid g1 d s w = dAvoid g0 d s w := by
  intro s w
  induction w generalizing s with
  | nil => rfl
  | cons i rest ih =>
    show dAvoid g1 d s (i :: rest) = dAvoid g0 d s (i :: rest)
    simp only [dAvoid, getE_congr h, ih]

theorem wellFormed_congr {g0 g1 : Graph} (h : SameShape g0 g1) (hwf : WellFormed g0) :
    WellFormed g1 := by
  constructor
  · intro e he
    rw [h.2.1] at he
    rw [h.1]
    exact hwf.1 e he
  · intro v hv
    rw [h.1] at hv
    obtain ⟨hinc, hout⟩ := hwf.2 v hv
    refine ⟨?_, ?_⟩
    · rw [(h.2.2 v).1, hinc, h.2.1]
      apply List.filter_congr
      intro i _
      rw [getE_congr h]
    · rw [(h.2.2 v).2, hout, h.2.1]
      apply List.filter_congr
      intro i _
      rw [getE_congr h]

theorem heurLoop_shape : ∀ (fuel : ℕ) (st : HState),
    SameShape st.graph (heurLoop fuel st).graph
  | 0, st => sameShape_refl _
  | fuel + 1, st => by
    cases hpop : popMin st.queue with
    | none => simp only [heurLoop, hpop]; exact sameShape_refl _
    | some p =>
      obtain ⟨e, q'⟩ := p
      simp only [heurLoop, hpop]
      by_cases hvis : e.vertex_index ∈ st.visited
      · rw [if_pos hvis]
        exact heurLoop_shape fuel _
      · rw [if_neg hvis]
        exact sameShape_trans (relaxEdges_shape _ _ _ _ _) (heurLoop_shape fuel _)

/-- The preprocessor only writes `shortest_path` fields. -/
theorem calculate_heuristic_shape (g : Graph) (d : ℕ) :
    SameShape g (calculate_heuristic g d) :=
  sameShape_trans (setSP_shape g d 0) (heurLoop_shape (hFuel g) (initH g d))

/-- Admissibility of the computed heuristic: it never exceeds the cost of any
remaining walk. -/
theorem heuristic_adm (g : Graph) (d : ℕ) (hwf : WellFormed g)
    (hnn : NonnegWeights g) (hinit : InitDists g) (hd : d < g.vertices.length) :
    ∀ v w, isWalk g v d w = true →
      distTo (calculate_heuristic g d) v ≤ ((walkCost g w : ℚ) : WithTop ℚ) :=
  fun v w hw => (calculate_heuristic_spec g d hwf hnn hinit hd v).1 w hw

/-- Attainability: a finite heuristic value is the cost of an actual walk. -/
theorem heuristic_att (g : Graph) (d : ℕ) (hwf : WellFormed g)
    (hnn : NonnegWeights g) (hinit : InitDists g) (hd : d < g.vertices.length) :
    ∀ v, distTo (calculate_heuristic g d) v ≠ ⊤ →
      ∃ w, isWalk g v d w = true ∧
        distTo (calculate_heuristic g d) v = ((walkCost g w : ℚ) : WithTop ℚ) := by
  intro v hv
  apply (calculate_heuristic_spec g d hwf hnn hinit hd v).2.1
  by_contra hnw
  exact hv (((calculate_heuristic_spec g d hwf hnn hinit hd v).2.2).mpr hnw)

/-- The heuristic of the destination is `0`. -/
theorem heuristic_dest (g : Graph) (d : ℕ) (hwf : WellFormed g)
    (hnn : NonnegWeights g) (hinit : InitDists g) (hd : d < g.vertices.length) :
    distTo (calculate_heuristic g d) d = 0 := by
  have hle := heuristic_adm g d hwf hnn hinit hd d [] (isWalk_nil.mpr rfl)
  rw [walkCost_nil] at hle
  have hne : distTo (calculate_heuristic g d) d ≠ ⊤ := by
    intro h
    rw [h] at hle
    exact absurd (top_le_iff.mp hle) WithTop.coe_ne_top
  obtain ⟨w, hw, hc⟩ := heuristic_att g d hwf hnn hinit hd d hne
  have h0 : 0 ≤ walkCost g w := walkCost_nonneg hnn w hw
  have : ((0 : ℚ) : WithTop ℚ) ≤ distTo (calculate_heuristic g d) d := by
    rw [hc]
    exact_mod_cast h0
  refine le_antisymm ?_ ?_
  · exact_mod_cast hle
  · exact_mod_cast this

/-- Consistency (triangle inequality along every edge). -/
theorem heuristic_tri (g : Graph) (d : ℕ) (hwf : WellFormed g)
    (hnn : NonnegWeights g) (hinit : InitDists g) (hd : d < g.vertices.length) :
    ∀ i, i < g.edges.length →
      distTo (calculate_heuristic g d) (getE g i).fro ≤
        (((getE g i).weight : ℚ) : WithTop ℚ) +
          distTo (calculate_heuristic g d) (getE g i).tov := by
  intro i hi
  by_cases htop : distTo (calculate_heuristic g d) (getE g i).tov = ⊤
  · rw [htop]
    rw [WithTop.add_top]
    exact le_top
  · obtain ⟨w, hw, hc⟩ := heuristic_att g d hwf hnn hinit hd _ htop
    have hwalk : isWalk g (getE g i).fro d (i :: w) = true :=
      isWalk_cons.mpr ⟨hi, rfl, hw⟩
    calc distTo (calculate_heuristic g d) (getE g i).fro
        ≤ ((walkCost g (i :: w) : ℚ) : WithTop ℚ) :=
          heuristic_adm g d hwf hnn hinit hd _ _ hwalk
      _ = (((getE g i).weight : ℚ) : WithTop ℚ) + ((walkCost g w : ℚ) : WithTop ℚ) := by
          rw [walkCost_cons, WithTop.coe_add]
      _ = (((getE g i).weight : ℚ) : WithTop ℚ) +
          distTo (calculate_heuristic g d) (getE g i).tov := by rw [hc]

/-! ## Auxiliary lemmas for the search analysis -/

/-- A well-formed outgoing list holds exactly the edges leaving the vertex. -/
theorem wellFormed_outgoing_iff {g : Graph} (hwf : WellFormed g) (v j : ℕ) :
    j ∈ (getV g v).outgoing ↔ j < g.edges.length ∧ (getE g j).fro = v := by
  by_cases hv : v < g.vertices.length
  · rw [(hwf.2 v hv).2]
    constructor
    · intro h
      have hf := List.mem_filter.mp h
      refine ⟨List.mem_range.mp hf.1, by simpa using hf.2⟩
    · intro ⟨h1, h2⟩
      exact List.mem_filter.mpr ⟨List.mem_range.mpr h1, by simpa using h2⟩
  · rw [getV_oob (le_of_not_lt hv)]
    constructor
    · intro h
      cases h
    · intro ⟨h1, h2⟩
      exact absurd (h2 ▸ (hwf.1 _ (getE_mem h1)).1) hv

theorem wellFormed_outgoing_nodup {g : Graph} (hwf : WellFormed g) (v : ℕ) :
    (getV g v).outgoing.Nodup := by
  by_cases hv : v < g.vertices.length
  · rw [(hwf.2 v hv).2]
    exact (List.nodup_range _).filter _
  · rw [getV_oob (le_of_not_lt hv)]
    exact List.nodup_nil

/-- Interior vertices of a `dAvoid` walk differ from `d`: the endpoint of any
proper non-total chunk is not the destination. -/
theorem dAvoid_proper_end {g : Graph} {d : ℕ} :
    ∀ (w1 : List ℕ) (s mid j : ℕ) (r : List ℕ),
      isWalk g s mid w1 = true → dAvoid g d s (w1 ++ j :: r) = true → mid ≠ d := by
  intro w1
  induction w1 with
  | nil =>
    intro s mid j r hw hav
    obtain rfl := isWalk_nil.mp hw
    simp only [List.nil_append, dAvoid, Bool.and_eq_true, decide_eq_true_eq] at hav
    exact hav.1
  | cons i rest ih =>
    intro s mid j r hw hav
    obtain ⟨_, _, hrest⟩ := isWalk_cons.mp hw
    simp only [List.cons_append, dAvoid, Bool.and_eq_true, decide_eq_true_eq] at hav
    exact ih _ mid j r hrest hav.2

/-- Extending a `dAvoid` walk by one edge from a non-destination endpoint
keeps it `dAvoid`. -/
theorem dAvoid_append_edge {g : Graph} {d : ℕ} :
    ∀ (w : List ℕ) (s v j : ℕ), isWalk g s v w = true → dAvoid g d s w = true →
      v ≠ d → dAvoid g d s (w ++ [j]) = true := by
  intro w
  induction w with
  | nil =>
    intro s v j hw hav hv
    obtain rfl := isWalk_nil.mp hw
    simp [dAvoid, hv]
  | cons i rest ih =>
    intro s v j hw hav hv
    obtain ⟨_, _, hrest⟩ := isWalk_cons.mp hw
    simp only [dAvoid, Bool.and_eq_true, decide_eq_true_eq] at hav
    simp only [List.cons_append, dAvoid, Bool.and_eq_true, decide_eq_true_eq]
    exact ⟨hav.1, ih _ _ j hrest hav.2 hv⟩

/-- If `b ++ r` ends exactly one entry past `c`, and `r` is non-empty, then
`b` is a front chunk of `c`. -/
theorem pre_of_append_concat {b r c : List ℕ} {j : ℕ}
    (h : b ++ r = c ++ [j]) (hr : r ≠ []) : ∃ r2, b ++ r2 = c := by
  have hlen : b.length + r.length = c.length + 1 := by
    have := congrArg List.length h
    simpa using this
  have hrlen : 1 ≤ r.length := by
    cases r with
    | nil => exact absurd rfl hr
    | cons a l => simp
  have hble : b.length ≤ c.length := by omega
  refine ⟨c.drop b.length, ?_⟩
  have hb : b = (c ++ [j]).take b.length := by
    rw [← h, List.take_left]
  rw [List.take_append_of_le_length hble] at hb
  nth_rewrite 1 [hb]
  rw [List.take_append_drop]

theorem searchG_R_symm : Symmetric (fun a b : List ℕ =>
    (∀ r, a ++ r ≠ b) ∧ (∀ r, b ++ r ≠ a)) :=
  fun _ _ h => ⟨h.2, h.1⟩

/-- One destination pop (printing a cost) preserves the search invariant,
whatever happens to `k`. -/
theorem searchG_step_dest {g : Graph} {d s : ℕ} (hd0 : distTo g d = 0)
    {st : GSState} (hinv : SInvG g d s st) {e : GElem} {q' : List GElem}
    (hpop : popMinBy GElem.priority st.queue = some (e, q'))
    (hed : e.vertex_index = d) (k' : ℕ) :
    SInvG g d s ⟨q', st.out ++ [e.path_length], st.emitted ++ [e.walk], k'⟩ := by
  have hemem : e ∈ st.queue := popMinBy_self_mem _ _ _ _ hpop
  obtain ⟨hew, hea, hec, hep⟩ := hinv.elems e hemem
  have epri : e.priority = ((e.path_length : ℚ) : WithTop ℚ) := by
    rw [hep, hed, hd0, add_zero]
  have hpermw : (st.queue.map GElem.walk).Perm (e.walk :: q'.map GElem.walk) :=
    (popMinBy_perm _ _ _ _ hpop).map GElem.walk
  refine ⟨?_, ?_, ?_, ?_, ?_, ?_, ?_⟩
  · intro x hx
    exact hinv.elems x (popMinBy_mem _ _ _ _ hpop x hx)
  · intro w hwmem
    rcases List.mem_append.mp hwmem with hwmem | hwmem
    · exact hinv.emitted_walks w hwmem
    · rcases List.mem_singleton.mp hwmem with rfl
      refine ⟨?_, hea⟩
      rw [← hed]
      exact hew
  · show st.out ++ [e.path_length] = (st.emitted ++ [e.walk]).map (walkCost g)
    rw [List.map_append, hinv.emitted_costs, hec]
    rfl
  · have hperm : List.Perm ((st.queue.map GElem.walk) ++ st.emitted)
        (q'.map GElem.walk ++ (st.emitted ++ [e.walk])) := by
      have h1 : List.Perm ((st.queue.map GElem.walk) ++ st.emitted)
          ((e.walk :: q'.map GElem.walk) ++ st.emitted) := hpermw.append_right _
      have h2 : List.Perm ((q'.map GElem.walk ++ st.emitted) ++ [e.walk])
          (e.walk :: (q'.map GElem.walk ++ st.emitted)) := List.perm_append_singleton _ _
      have h3 : (e.walk :: q'.map GElem.walk) ++ st.emitted
          = e.walk :: (q'.map GElem.walk ++ st.emitted) := rfl
      rw [h3] at h1
      have h4 : (q'.map GElem.walk ++ st.emitted) ++ [e.walk]
          = q'.map GElem.walk ++ (st.emitted ++ [e.walk]) := by rw [List.append_assoc]
      rw [h4] at h2
      exact h1.trans h2.symm
    exact (List.Perm.pairwise_iff (fun h => ⟨h.2, h.1⟩) hperm).mp hinv.anti
  · intro w hw hav
    rcases hinv.complete w hw hav with hE | ⟨e2, he2, r, hr⟩
    · exact Or.inl (List.mem_append_left _ hE)
    · have hm : e2 ∈ e :: q' := (popMinBy_perm _ _ _ _ hpop).mem_iff.mp he2
      rcases List.mem_cons.mp hm with rfl | hmem
      · cases r with
        | nil =>
          left
          apply List.mem_append_right
          have : e2.walk = w := by simpa using hr
          rw [← this]
          exact List.mem_singleton_self _
        | cons j r' =>
          exfalso
          apply dAvoid_proper_end e2.walk s e2.vertex_index j r' hew
          · rw [hr]
            exact hav
          · rw [hed]
      · exact Or.inr ⟨e2, hmem, r, hr⟩
  · show List.Pairwise (· ≤ ·) (st.out ++ [e.path_length])
    refine List.pairwise_append.mpr ⟨hinv.sorted, List.pairwise_singleton _ _, ?_⟩
    intro a ha b hb
    rcases List.mem_singleton.mp hb with rfl
    have := hinv.ordered a ha e hemem
    rw [epri] at this
    exact_mod_cast this
  · intro c hc e2 he2
    have he2q : e2 ∈ st.queue := popMinBy_mem _ _ _ _ hpop e2 he2
    rcases List.mem_append.mp hc with hc | hc
    · exact hinv.ordered c hc e2 he2q
    · rcases List.mem_singleton.mp hc with rfl
      rw [← epri]
      exact popMinBy_min _ _ _ _ hpop e2 he2q

/-- One non-destination pop (expansion of the popped walk along every
outgoing edge) preserves the search invariant. -/
theorem searchG_step_expand {g : Graph} {d s : ℕ} (hwf : WellFormed g)
    (hTRI : ∀ i, i < g.edges.length → distTo g (getE g i).fro ≤
      (((getE g i).weight : ℚ) : WithTop ℚ) + distTo g (getE g i).tov)
    {st : GSState} (hinv : SInvG g d s st) {e : GElem} {q' : List GElem}
    (hpop : popMinBy GElem.priority st.queue = some (e, q'))
    (hed : e.vertex_index ≠ d) (k' : ℕ) :
    SInvG g d s ⟨expandEdgesG g e.path_length e.walk q' (getV g e.vertex_index).outgoing,
      st.out, st.emitted, k'⟩ := by
  have hemem : e ∈ st.queue := popMinBy_self_mem _ _ _ _ hpop
  obtain ⟨hew, hea, hec, hep⟩ := hinv.elems e hemem
  have hpermw : List.Perm (st.queue.map GElem.walk) (e.walk :: q'.map GElem.walk) :=
    (popMinBy_perm _ _ _ _ hpop).map GElem.walk
  have hold : List.Pairwise (fun a b : List ℕ => (∀ r, a ++ r ≠ b) ∧ (∀ r, b ++ r ≠ a))
      (e.walk :: (q'.map GElem.walk ++ st.emitted)) := by
    have hperm : List.Perm (st.queue.map GElem.walk ++ st.emitted)
        (e.walk :: (q'.map GElem.walk ++ st.emitted)) := by
      have h1 := hpermw.append_right st.emitted
      exact h1
    exact (List.Perm.pairwise_iff (fun h => ⟨h.2, h.1⟩) hperm).mp hinv.anti
  obtain ⟨hHead, hPtail⟩ := List.pairwise_cons.mp hold
  have hRchild : ∀ b, b ∈ q'.map GElem.walk ++ st.emitted → ∀ j : ℕ,
      (∀ r, (e.walk ++ [j]) ++ r ≠ b) ∧ (∀ r, b ++ r ≠ e.walk ++ [j]) := by
    intro b hb j
    have hhb := hHead b hb
    constructor
    · intro r hr
      rw [List.append_assoc] at hr
      exact hhb.1 _ hr
    · intro r hr
      by_cases hrnil : r = []
      · subst hrnil
        rw [List.append_nil] at hr
        exact hhb.1 [j] hr.symm
      · obtain ⟨r2, hr2⟩ := pre_of_append_concat hr hrnil
        exact hhb.2 r2 hr2
  refine ⟨?_, hinv.emitted_walks, hinv.emitted_costs, ?_, ?_, hinv.sorted, ?_⟩
  · intro x hx
    rcases List.mem_append.mp hx with hx | hx
    · exact hinv.elems x (popMinBy_mem _ _ _ _ hpop x hx)
    · obtain ⟨j, hjL, rfl⟩ := List.mem_map.mp hx
      obtain ⟨hj1, hj2⟩ := (wellFormed_outgoing_iff hwf _ j).mp hjL
      refine ⟨?_, ?_, ?_, ?_⟩
      · exact isWalk_append hew (isWalk_cons.mpr ⟨hj1, hj2, isWalk_nil.mpr rfl⟩)
      · exact dAvoid_append_edge e.walk s e.vertex_index j hew hea hed
      · show qadd e.path_length (getE g j).weight = _
        rw [qadd_eq, hec, walkCost_append]
        simp [walkCost]
      · show wadd ((qadd e.path_length (getE g j).weight : ℚ) : WithTop ℚ)
            (distTo g (getE g j).tov) = _
        rw [wadd_eq]
  · show List.Pairwise _ (List.map GElem.walk
      (q' ++ (getV g e.vertex_index).outgoing.map _) ++ st.emitted)
    rw [List.map_append, List.map_map, List.append_assoc]
    have hcomp : (GElem.walk ∘ fun i =>
        (⟨(getE g i).tov, wadd ((qadd e.path_length (getE g i).weight : ℚ) : WithTop ℚ)
          (distTo g (getE g i).tov), qadd e.path_length (getE g i).weight,
          e.walk ++ [i]⟩ : GElem)) = fun i => e.walk ++ [i] := rfl
    rw [hcomp]
    obtain ⟨hq'p, hEp, hq'E⟩ := List.pairwise_append.mp hPtail
    refine List.pairwise_append.mpr ⟨hq'p, ?_, ?_⟩
    · refine List.pairwise_append.mpr ⟨?_, hEp, ?_⟩
      · have hnd : ((getV g e.vertex_index).outgoing).Nodup :=
          wellFormed_outgoing_nodup hwf e.vertex_index
        refine List.Pairwise.map _ ?_ hnd
        intro a b hab
        constructor
        · intro r hr
          rw [List.append_assoc] at hr
          have := List.append_cancel_left hr
          simp at this
          exact hab this.1
        · intro r hr
          rw [List.append_assoc] at hr
          have := List.append_cancel_left hr
          simp at this
          exact hab this.1.symm
      · intro a ha b hb
        obtain ⟨j, _, rfl⟩ := List.mem_map.mp ha
        exact hRchild b (List.mem_append_right _ hb) j
    · intro a ha b hb
      rcases List.mem_append.mp hb with hb | hb
      · obtain ⟨j, _, rfl⟩ := List.mem_map.mp hb
        have h := hRchild a (List.mem_append_left _ ha) j
        exact ⟨h.2, h.1⟩
      · exact hq'E a ha b hb
  · intro w hw hav
    rcases hinv.complete w hw hav with hE | ⟨e2, he2, r, hr⟩
    · exact Or.inl hE
    · have hm : e2 ∈ e :: q' := (popMinBy_perm _ _ _ _ hpop).mem_iff.mp he2
      rcases List.mem_cons.mp hm with rfl | hmem
      · cases r with
        | nil =>
          exfalso
          apply hed
          have hwe : e2.walk = w := by simpa using hr
          exact isWalk_end_unique hew (by rw [hwe]; exact hw)
        | cons j r' =>
          have hw' : isWalk g s d (e2.walk ++ j :: r') = true := by rw [hr]; exact hw
          obtain ⟨mid, hm1, hm2⟩ := isWalk_append_split hw'
          have hmid : mid = e2.vertex_index := isWalk_end_unique hm1 hew
          subst hmid
          obtain ⟨hj1, hj2, _⟩ := isWalk_cons.mp hm2
          have hjL : j ∈ (getV g e2.vertex_index).outgoing :=
            (wellFormed_outgoing_iff hwf _ j).mpr ⟨hj1, hj2⟩
          refine Or.inr ⟨_, List.mem_append_right _ (List.mem_map_of_mem _ hjL), r', ?_⟩
          show (e2.walk ++ [j]) ++ r' = w
          rw [List.append_assoc]
          exact hr
      · exact Or.inr ⟨e2, List.mem_append_left _ hmem, r, hr⟩
  · intro c hc e2 he2
    rcases List.mem_append.mp he2 with he2 | he2
    · exact hinv.ordered c hc e2 (popMinBy_mem _ _ _ _ hpop e2 he2)
    · obtain ⟨j, hjL, rfl⟩ := List.mem_map.mp he2
      obtain ⟨hj1, hj2⟩ := (wellFormed_outgoing_iff hwf _ j).mp hjL
      have h1 : ((c : ℚ) : WithTop ℚ) ≤ e.priority := hinv.ordered c hc e hemem
      have h2 := hTRI j hj1
      rw [hj2] at h2
      calc ((c : ℚ) : WithTop ℚ)
          ≤ e.priority := h1
        _ = ((e.path_length : ℚ) : WithTop ℚ) + distTo g e.vertex_index := hep
        _ ≤ ((e.path_length : ℚ) : WithTop ℚ) +
            ((((getE g j).weight : ℚ) : WithTop ℚ) + distTo g (getE g j).tov) :=
            add_le_add_left h2 _
        _ = ((qadd e.path_length (getE g j).weight : ℚ) : WithTop ℚ) +
            distTo g (getE g j).tov := by
            rw [qadd_eq, WithTop.coe_add, add_assoc]
        _ = wadd ((qadd e.path_length (getE g j).weight : ℚ) : WithTop ℚ)
            (distTo g (getE g j).tov) := (wadd_eq _ _).symm

/-- The search invariant is preserved by any number of loop iterations. -/
theorem searchLoopG_inv {g : Graph} {d s : ℕ} (hwf : WellFormed g)
    (hd0 : distTo g d = 0)
    (hTRI : ∀ i, i < g.edges.length → distTo g (getE g i).fro ≤
      (((getE g i).weight : ℚ) : WithTop ℚ) + distTo g (getE g i).tov) :
    ∀ (fuel : ℕ) (st : GSState), SInvG g d s st →
      SInvG g d s (searchLoopG g d fuel st).1
  | 0, st, hinv => hinv
  | fuel + 1, st, hinv => by
    cases hpop : popMinBy GElem.priority st.queue with
    | none => simp only [searchLoopG, hpop]; exact hinv
    | some p =>
      obtain ⟨e, q'⟩ := p
      simp only [searchLoopG, hpop]
      by_cases hed : e.vertex_index = d
      · rw [if_pos hed]
        by_cases hk : 1 < st.k
        · rw [if_pos hk]
          exact searchLoopG_inv hwf hd0 hTRI fuel _
            (searchG_step_dest hd0 hinv hpop hed _)
        · rw [if_neg hk]
          exact searchG_step_dest hd0 hinv hpop hed _
      · rw [if_neg hed]
        exact searchLoopG_inv hwf hd0 hTRI fuel _
          (searchG_step_expand hwf hTRI hinv hpop hed _)

/-- Counting: starting with at least one cost still to print, the loop keeps
`out.length + k` constant until the final print, and on a normal exit either
the queue is empty (with the sum preserved) or exactly `out.length + k` costs
have been printed in total. -/
theorem searchLoopG_count (g : Graph) (d : ℕ) :
    ∀ (fuel : ℕ) (st : GSState), 1 ≤ st.k →
      ((searchLoopG g d fuel st).2 = true →
        ((searchLoopG g d fuel st).1.queue = [] ∧
          (searchLoopG g d fuel st).1.out.length + (searchLoopG g d fuel st).1.k =
            st.out.length + st.k ∧ 1 ≤ (searchLoopG g d fuel st).1.k) ∨
        (searchLoopG g d fuel st).1.out.length = st.out.length + st.k)
  | 0, st, _ => by
    intro h
    exact absurd h (by simp [searchLoopG])
  | fuel + 1, st, hk => by
    cases hpop : popMinBy GElem.priority st.queue with
    | none =>
      simp only [searchLoopG, hpop]
      intro _
      exact Or.inl ⟨(popMinBy_eq_none _ _).mp hpop, by trivial, hk⟩
    | some p =>
      obtain ⟨e, q'⟩ := p
      simp only [searchLoopG, hpop]
      by_cases hed : e.vertex_index = d
      · rw [if_pos hed]
        by_cases hkk : 1 < st.k
        · rw [if_pos hkk]
          intro hdone
          have hk' : 1 ≤ st.k - 1 := by omega
          have ih := searchLoopG_count g d fuel
            ⟨q', st.out ++ [e.path_length], st.emitted ++ [e.walk], st.k - 1⟩ hk' hdone
          rcases ih with ⟨h1, h2, h3⟩ | h4
          · refine Or.inl ⟨h1, ?_, h3⟩
            rw [h2]
            simp only [List.length_append, List.length_singleton]
            omega
          · right
            rw [h4]
            simp only [List.length_append, List.length_singleton]
            omega
        · rw [if_neg hkk]
          intro _
          right
          simp only [List.length_append, List.length_singleton]
          omega
      · rw [if_neg hed]
        intro hdone
        exact searchLoopG_count g d fuel _ hk hdone

/-- Projection of expansion. -/
theorem expandEdges_proj (g : Graph) (pl : ℚ) (w : List ℕ) (q : List GElem)
    (L : List ℕ) :
    expandEdges g pl (q.map projG) L = (expandEdgesG g pl w q L).map projG := by
  unfold expandEdges expandEdgesG
  rw [List.map_append, List.map_map]
  rfl

/-- The ghost loop projects exactly onto the real search loop. -/
theorem searchLoop_proj (g : Graph) (d : ℕ) :
    ∀ (fuel : ℕ) (st : GSState),
      searchLoop d fuel (projS g st) =
        (projS g (searchLoopG g d fuel st).1, (searchLoopG g d fuel st).2)
  | 0, _ => rfl
  | fuel + 1, st => by
    have hpopm := popMinBy_map GElem.priority QueueElement.priority projG
      (fun _ => rfl) st.queue
    cases hpop : popMinBy GElem.priority st.queue with
    | none =>
      rw [hpop] at hpopm
      simp at hpopm
      have hpopp : popMin (projS g st).queue = none := hpopm
      simp only [searchLoop, searchLoopG, hpop, hpopp]
    | some p =>
      obtain ⟨e, q'⟩ := p
      rw [hpop] at hpopm
      simp at hpopm
      have hpopp : popMin (projS g st).queue = some (projG e, q'.map projG) := hpopm
      simp only [searchLoop, searchLoopG, hpop, hpopp]
      by_cases hed : e.vertex_index = d
      · have hedp : (projG e).vertex_index = d := hed
        rw [if_pos hed, if_pos hedp]
        by_cases hk : 1 < st.k
        · have hkp : 1 < (projS g st).k := hk
          rw [if_pos hk, if_pos hkp]
          have hrec := searchLoop_proj g d fuel
            ⟨q', st.out ++ [e.path_length], st.emitted ++ [e.walk], st.k - 1⟩
          rw [← hrec]
          rfl
        · have hkp : ¬ 1 < (projS g st).k := hk
          rw [if_neg hk, if_neg hkp]
          rfl
      · have hedp : ¬ (projG e).vertex_index = d := hed
        rw [if_neg hed, if_neg hedp]
        have hrec := searchLoop_proj g d fuel
          ⟨expandEdgesG g e.path_length e.walk q' (getV g e.vertex_index).outgoing,
            st.out, st.emitted, st.k⟩
        rw [← hrec]
        apply congrArg (searchLoop d fuel)
        have hq : expandEdges g e.path_length (q'.map projG)
            (getV g e.vertex_index).outgoing =
            (expandEdgesG g e.path_length e.walk q'
              (getV g e.vertex_index).outgoing).map projG :=
          expandEdges_proj g e.path_length e.walk q' _
        show SState.mk g (expandEdges g e.path_length (q'.map projG)
            (getV g e.vertex_index).outgoing) st.out st.k = _
        rw [hq]
        rfl

/-- The invariant holds at the start of the search. -/
theorem initG_inv (g : Graph) (d s k : ℕ) : SInvG g d s (initG g s k) := by
  refine ⟨?_, ?_, rfl, ?_, ?_, List.Pairwise.nil, ?_⟩
  · intro e he
    rcases List.mem_singleton.mp he with rfl
    refine ⟨by simp [isWalk], rfl, rfl, (zero_add _).symm⟩
  · intro w hw
    cases hw
  · exact List.pairwise_singleton _ _
  · intro w _ _
    exact Or.inr ⟨⟨s, distTo g s, 0, []⟩, List.mem_singleton_self _, w, rfl⟩
  · intro c hc
    cases hc

/-- Claim C6 (confirmed): on the preprocessed graph the sequence of costs the
search prints is non-decreasing, whatever `k` and however long the loop has
run. -/
theorem C6_costs_monotone (g : Graph) (s d k fuel : ℕ) (hwf : WellFormed g)
    (hnn : NonnegWeights g) (hinit : InitDists g) (hd : d < g.vertices.length) :
    List.Pairwise (· ≤ ·) ((pipeline g s d k fuel).1.out) := by
  have hshape := calculate_heuristic_shape g d
  have hwfs : WellFormed (calculate_heuristic g d) := wellFormed_congr hshape hwf
  have hd0 : distTo (calculate_heuristic g d) d = 0 := heuristic_dest g d hwf hnn hinit hd
  have hTRI : ∀ i, i < (calculate_heuristic g d).edges.length →
      distTo (calculate_heuristic g d) (getE (calculate_heuristic g d) i).fro ≤
        (((getE (calculate_heuristic g d) i).weight : ℚ) : WithTop ℚ) +
          distTo (calculate_heuristic g d) (getE (calculate_heuristic g d) i).tov := by
    intro i hi
    rw [getE_congr hshape]
    exact heuristic_tri g d hwf hnn hinit hd i (hshape.2.1 ▸ hi)
  have hinv := searchLoopG_inv hwfs hd0 hTRI fuel
    (initG (calculate_heuristic g d) s k) (initG_inv _ d s k)
  have hproj := searchLoop_proj (calculate_heuristic g d) d fuel
    (initG (calculate_heuristic g d) s k)
  show List.Pairwise (· ≤ ·)
    ((searchLoop d fuel (initS (calculate_heuristic g d) s k)).1.out)
  have hi0 : initS (calculate_heuristic g d) s k =
      projS (calculate_heuristic g d) (initG (calculate_heuristic g d) s k) := rfl
  rw [hi0, hproj]
  exact hinv.sorted

/-- Witness for C6 on the concrete 4-vertex graph. -/
theorem C6_costs_monotone_witness :
    WellFormed exampleGraph ∧ NonnegWeights exampleGraph ∧ InitDists exampleGraph ∧
    3 < exampleGraph.vertices.length ∧
    List.Pairwise (· ≤ ·) ((pipeline exampleGraph 0 3 2 30).1.out) :=
  ⟨by decide, by decide, by decide, by decide,
    C6_costs_monotone exampleGraph 0 3 2 30 (by decide) (by decide) (by decide) (by decide)⟩

/-- Claim C1 (corrected): whenever the search loop terminates on its own (the
`Bool` is `true`), the printed costs are exactly the costs of `min(k, N)`
distinct cheapest source→destination edge-walks among those that visit the
destination only at their very end (`dAvoid`), in non-decreasing order,
counting multiplicities: the emitted walks `E` are pairwise distinct `dAvoid`
walks whose costs are the output in order; either `k` costs are printed or
every such walk is emitted; and every such walk that was not emitted costs at
least as much as every printed cost. -/
theorem C1_k_cheapest (g : Graph) (s d k fuel : ℕ) (hwf : WellFormed g)
    (hnn : NonnegWeights g) (hinit : InitDists g) (hd : d < g.vertices.length)
    (hk : 1 ≤ k) (hdone : (pipeline g s d k fuel).2 = true) :
    ∃ E : List (List ℕ),
      (pipeline g s d k fuel).1.out = E.map (walkCost g) ∧
      E.Nodup ∧
      (∀ w ∈ E, isWalk g s d w = true ∧ dAvoid g d s w = true) ∧
      List.Pairwise (· ≤ ·) ((pipeline g s d k fuel).1.out) ∧
      ((pipeline g s d k fuel).1.out.length = k ∨
        ∀ w, isWalk g s d w = true → dAvoid g d s w = true → w ∈ E) ∧
      (∀ w, isWalk g s d w = true → dAvoid g d s w = true → w ∉ E →
        ∀ c ∈ (pipeline g s d k fuel).1.out, c ≤ walkCost g w) := by
  have hshape := calculate_heuristic_shape g d
  have hwfs : WellFormed (calculate_heuristic g d) := wellFormed_congr hshape hwf
  have hd0 : distTo (calculate_heuristic g d) d = 0 := heuristic_dest g d hwf hnn hinit hd
  have hTRI : ∀ i, i < (calculate_heuristic g d).edges.length →
      distTo (calculate_heuristic g d) (getE (calculate_heuristic g d) i).fro ≤
        (((getE (calculate_heuristic g d) i).weight : ℚ) : WithTop ℚ) +
          distTo (calculate_heuristic g d) (getE (calculate_heuristic g d) i).tov := by
    intro i hi
    rw [getE_congr hshape]
    exact heuristic_tri g d hwf hnn hinit hd i (hshape.2.1 ▸ hi)
  have hinv := searchLoopG_inv hwfs hd0 hTRI fuel
    (initG (calculate_heuristic g d) s k) (initG_inv _ d s k)
  have hproj := searchLoop_proj (calculate_heuristic g d) d fuel
    (initG (calculate_heuristic g d) s k)
  have hpipe : pipeline g s d k fuel =
      (projS (calculate_heuristic g d)
        (searchLoopG (calculate_heuristic g d) d fuel
          (initG (calculate_heuristic g d) s k)).1,
       (searchLoopG (calculate_heuristic g d) d fuel
          (initG (calculate_heuristic g d) s k)).2) := hproj
  have hout : (pipeline g s d k fuel).1.out =
      (searchLoopG (calculate_heuristic g d) d fuel
        (initG (calculate_heuristic g d) s k)).1.out := by
    rw [hpipe]
    rfl
  have h2 : (searchLoopG (calculate_heuristic g d) d fuel
      (initG (calculate_heuristic g d) s k)).2 = true := by
    rw [hpipe] at hdone
    exact hdone
  have hcount := searchLoopG_count (calculate_heuristic g d) d fuel
    (initG (calculate_heuristic g d) s k) hk h2
  refine ⟨(searchLoopG (calculate_heuristic g d) d fuel
    (initG (calculate_heuristic g d) s k)).1.emitted, ?_, ?_, ?_, ?_, ?_, ?_⟩
  · rw [hout, hinv.emitted_costs]
    apply List.map_congr_left
    intro w _
    exact walkCost_congr hshape w
  · have hp := (List.pairwise_append.mp hinv.anti).2.1
    exact hp.imp fun h => fun heq => h.1 [] (by rw [List.append_nil]; exact heq)
  · intro w hw
    obtain ⟨h1, h2'⟩ := hinv.emitted_walks w hw
    rw [isWalk_congr hshape] at h1
    rw [dAvoid_congr hshape] at h2'
    exact ⟨h1, h2'⟩
  · rw [hout]
    exact hinv.sorted
  · rcases hcount with ⟨hqe, _, _⟩ | hlen
    · right
      intro w hw hav
      rw [← isWalk_congr hshape] at hw
      rw [← dAvoid_congr hshape] at hav
      rcases hinv.complete w hw hav with hE | ⟨e2, he2, _, _⟩
      · exact hE
      · rw [hqe] at he2
        exact absurd he2 (List.not_mem_nil _)
    · left
      rw [hout, hlen]
      simp [initG]
  · intro w hw hav hnE c hc
    rw [hout] at hc
    have hwg := hw
    rw [← isWalk_congr hshape] at hw
    rw [← dAvoid_congr hshape] at hav
    rcases hinv.complete w hw hav with hE | ⟨e2, he2, r, hr⟩
    · exact absurd hE hnE
    · obtain ⟨he2w, _, he2c, he2p⟩ := hinv.elems e2 he2
      have hord := hinv.ordered c hc e2 he2
      have hw' : isWalk (calculate_heuristic g d) s d (e2.walk ++ r) = true := by
        rw [hr]; exact hw
      obtain ⟨mid, hm1, hm2⟩ := isWalk_append_split hw'
      have hmid : mid = e2.vertex_index := isWalk_end_unique hm1 he2w
      subst hmid
      have hadm : distTo (calculate_heuristic g d) e2.vertex_index ≤
          ((walkCost g r : ℚ) : WithTop ℚ) := by
        apply heuristic_adm g d hwf hnn hinit hd
        rw [← isWalk_congr hshape]
        exact hm2
      have hcost2 : e2.path_length = walkCost g e2.walk := by
        rw [he2c]
        exact walkCost_congr hshape _
      have hchain : ((c : ℚ) : WithTop ℚ) ≤ ((walkCost g w : ℚ) : WithTop ℚ) := by
        calc ((c : ℚ) : WithTop ℚ)
            ≤ e2.priority := hord
          _ = ((e2.path_length : ℚ) : WithTop ℚ) +
              distTo (calculate_heuristic g d) e2.vertex_index := he2p
          _ ≤ ((e2.path_length : ℚ) : WithTop ℚ) + ((walkCost g r : ℚ) : WithTop ℚ) :=
              add_le_add_left hadm _
          _ = ((walkCost g e2.walk + walkCost g r : ℚ) : WithTop ℚ) := by
              rw [hcost2, WithTop.coe_add]
          _ = ((walkCost g (e2.walk ++ r) : ℚ) : WithTop ℚ) := by
              rw [walkCost_append]
          _ = ((walkCost g w : ℚ) : WithTop ℚ) := by rw [hr]
      exact_mod_cast hchain

/-- Witness for C1 (amended) on the concrete 4-vertex graph. -/
theorem C1_k_cheapest_witness :
    WellFormed exampleGraph ∧ NonnegWeights exampleGraph ∧ InitDists exampleGraph ∧
    3 < exampleGraph.vertices.length ∧ 1 ≤ 2 ∧
    (pipeline exampleGraph 0 3 2 30).2 = true ∧
    (∃ E : List (List ℕ),
      (pipeline exampleGraph 0 3 2 30).1.out = E.map (walkCost exampleGraph) ∧
      E.Nodup ∧
      (∀ w ∈ E, isWalk exampleGraph 0 3 w = true ∧ dAvoid exampleGraph 3 0 w = true) ∧
      List.Pairwise (· ≤ ·) ((pipeline exampleGraph 0 3 2 30).1.out) ∧
      ((pipeline exampleGraph 0 3 2 30).1.out.length = 2 ∨
        ∀ w, isWalk exampleGraph 0 3 w = true → dAvoid exampleGraph 3 0 w = true → w ∈ E) ∧
      (∀ w, isWalk exampleGraph 0 3 w = true → dAvoid exampleGraph 3 0 w = true → w ∉ E →
        ∀ c ∈ (pipeline exampleGraph 0 3 2 30).1.out, c ≤ walkCost exampleGraph w)) :=
  ⟨by decide, by decide, by decide, by decide, by decide, by decide,
    C1_k_cheapest exampleGraph 0 3 2 30 (by decide) (by decide) (by decide) (by decide)
      (by decide) (by decide)⟩

/-! ## Termination of the search on graphs with a finite expansion tree -/

theorem isWalkFrom_congr {g0 g1 : Graph} (h : SameShape g0 g1) :
    ∀ (s : ℕ) (w : List ℕ), isWalkFrom g1 s w = isWalkFrom g0 s w := by
  intro s w
  induction w generalizing s with
  | nil => rfl
  | cons i rest ih =>
    show isWalkFrom g1 s (i :: rest) = isWalkFrom g0 s (i :: rest)
    simp only [isWalkFrom, getE_congr h, h.2.1, ih]

theorem isWalkFrom_of_isWalk {g : Graph} {s v : ℕ} :
    ∀ {w : List ℕ}, isWalk g s v w = true → isWalkFrom g s w = true := by
  intro w
  induction w generalizing s with
  | nil => intro _; rfl
  | cons i rest ih =>
    intro hw
    obtain ⟨hi, hfro, hrest⟩ := isWalk_cons.mp hw
    simp only [isWalkFrom, Bool.and_eq_true, decide_eq_true_eq, beq_iff_eq]
    exact ⟨⟨hi, hfro⟩, ih hrest⟩

theorem isWalkFrom_take {g : Graph} :
    ∀ {w : List ℕ} {s : ℕ}, isWalkFrom g s w = true →
      ∀ m, isWalkFrom g s (w.take m) = true := by
  intro w
  induction w with
  | nil => intro s _ m; simp; rfl
  | cons i rest ih =>
    intro s hw m
    simp only [isWalkFrom, Bool.and_eq_true, decide_eq_true_eq, beq_iff_eq] at hw
    cases m with
    | zero => rfl
    | succ m =>
      show isWalkFrom g s (i :: rest.take m) = true
      simp only [isWalkFrom, Bool.and_eq_true, decide_eq_true_eq, beq_iff_eq]
      exact ⟨hw.1, ih hw.2 m⟩

/-- If no walk from the source has length exactly `n`, every walk from the
source is shorter than `n` (a longer one would have a length-`n` prefix). -/
theorem walk_short {g : Graph} {s n : ℕ}
    (hNoLong : ∀ w, isWalkFrom g s w = true → w.length ≠ n) :
    ∀ {v : ℕ} {w : List ℕ}, isWalk g s v w = true → w.length < n := by
  intro v w hw
  by_contra hge
  push_neg at hge
  have ht := isWalkFrom_take (isWalkFrom_of_isWalk hw) n
  have hl : (w.take n).length = n := by rw [List.length_take]; omega
  exact hNoLong _ ht hl

theorem walkCount_pos (g : Graph) (L v : ℕ) : 1 ≤ walkCount g L v := by
  cases L with
  | zero => exact le_refl 1
  | succ L => exact Nat.le_add_right 1 _

/-- If no walk from the source has length `n`, the ghost search loop exits on
its own given fuel exceeding the tree-size measure: every iteration strictly
decreases `gMeasure`. -/
theorem searchLoopG_total (g : Graph) (d s n : ℕ) (hwf : WellFormed g)
    (hNoLong : ∀ w, isWalkFrom g s w = true → w.length ≠ n) :
    ∀ (fuel : ℕ) (st : GSState),
      (∀ e ∈ st.queue, isWalk g s e.vertex_index e.walk = true) →
      gMeasure g n st < fuel →
      (searchLoopG g d fuel st).2 = true
  | 0, st => by
    intro _ hm
    exact absurd hm (Nat.not_lt_zero _)
  | fuel + 1, st => by
    intro Hq hm
    cases hpop : popMinBy GElem.priority st.queue with
    | none => simp [searchLoopG, hpop]
    | some p =>
      obtain ⟨e, q'⟩ := p
      have hperm := popMinBy_perm GElem.priority st.queue e q' hpop
      have hsum : gMeasure g n st =
          walkCount g (n - e.walk.length) e.vertex_index +
          (q'.map fun x => walkCount g (n - x.walk.length) x.vertex_index).sum := by
        unfold gMeasure
        rw [(hperm.map _).sum_eq]
        rfl
      have heq : isWalk g s e.vertex_index e.walk = true :=
        Hq e (popMinBy_self_mem GElem.priority st.queue e q' hpop)
      have hlen : e.walk.length < n := walk_short hNoLong heq
      have hq' : ∀ x ∈ q', isWalk g s x.vertex_index x.walk = true :=
        fun x hx => Hq x (popMinBy_mem GElem.priority st.queue e q' hpop x hx)
      have hpos := walkCount_pos g (n - e.walk.length) e.vertex_index
      rw [hsum] at hm
      simp only [searchLoopG, hpop]
      by_cases hed : e.vertex_index = d
      · rw [if_pos hed]
        by_cases hkk : 1 < st.k
        · rw [if_pos hkk]
          apply searchLoopG_total g d s n hwf hNoLong fuel _ hq'
          show (q'.map fun x => walkCount g (n - x.walk.length) x.vertex_index).sum < fuel
          omega
        · rw [if_neg hkk]
      · rw [if_neg hed]
        have hLsucc : n - e.walk.length = (n - (e.walk.length + 1)) + 1 := by omega
        have hcnt : walkCount g (n - e.walk.length) e.vertex_index =
            1 + (((getV g e.vertex_index).outgoing).map
              fun j => walkCount g (n - (e.walk.length + 1)) (getE g j).tov).sum := by
          rw [hLsucc]
          rfl
        have hchild : ∀ x ∈ expandEdgesG g e.path_length e.walk q'
            (getV g e.vertex_index).outgoing,
            isWalk g s x.vertex_index x.walk = true := by
          intro x hx
          unfold expandEdgesG at hx
          rcases List.mem_append.mp hx with hx | hx
          · exact hq' x hx
          · obtain ⟨j, hj, rfl⟩ := List.mem_map.mp hx
            obtain ⟨hjlen, hjf⟩ := (wellFormed_outgoing_iff hwf _ j).mp hj
            show isWalk g s (getE g j).tov (e.walk ++ [j]) = true
            apply isWalk_append heq
            simp [isWalk, hjlen, hjf]
        apply searchLoopG_total g d s n hwf hNoLong fuel _ hchild
        have hmeq : gMeasure g n
            ⟨expandEdgesG g e.path_length e.walk q' (getV g e.vertex_index).outgoing,
              st.out, st.emitted, st.k⟩ =
            (q'.map fun x => walkCount g (n - x.walk.length) x.vertex_index).sum +
            (((getV g e.vertex_index).outgoing).map
              fun j => walkCount g (n - (e.walk.length + 1)) (getE g j).tov).sum := by
          show ((expandEdgesG g e.path_length e.walk q'
            (getV g e.vertex_index).outgoing).map
              fun x => walkCount g (n - x.walk.length) x.vertex_index).sum = _
          unfold expandEdgesG
          rw [List.map_append, List.sum_append, List.map_map]
          congr 1
          apply congrArg
          apply List.map_congr_left
          intro j _
          show walkCount g (n - (e.walk ++ [j]).length) (getE g j).tov = _
          simp only [List.length_append, List.length_cons, List.length_nil]
        rw [hmeq]
        omega

/-- Claim C8 (corrected): the original claim fails on graphs with a cycle
reachable from the source (`C8_counterexample`); under the amended hypothesis
that no edge-walk from the source has length equal to the number of vertices
(so the explorable subgraph is acyclic and the expansion tree finite), the
search loop does empty its queue and exit on its own given enough fuel, and
when the destination is unreachable from the source it prints nothing. -/
theorem C8_terminates (g : Graph) (s d k : ℕ) (hwf : WellFormed g)
    (hnn : NonnegWeights g) (hinit : InitDists g) (hd : d < g.vertices.length)
    (hNoLong : ∀ w, isWalkFrom g s w = true → w.length ≠ g.vertices.length) :
    ∃ fuel, (pipeline g s d k fuel).2 = true ∧
      ((∀ w, isWalk g s d w = false) → (pipeline g s d k fuel).1.out = []) := by
  have hshape := calculate_heuristic_shape g d
  have hwfs : WellFormed (calculate_heuristic g d) := wellFormed_congr hshape hwf
  have hd0 : distTo (calculate_heuristic g d) d = 0 := heuristic_dest g d hwf hnn hinit hd
  have hTRI : ∀ i, i < (calculate_heuristic g d).edges.length →
      distTo (calculate_heuristic g d) (getE (calculate_heuristic g d) i).fro ≤
        (((getE (calculate_heuristic g d) i).weight : ℚ) : WithTop ℚ) +
          distTo (calculate_heuristic g d) (getE (calculate_heuristic g d) i).tov := by
    intro i hi
    rw [getE_congr hshape]
    exact heuristic_tri g d hwf hnn hinit hd i (hshape.2.1 ▸ hi)
  have hNoLong' : ∀ w, isWalkFrom (calculate_heuristic g d) s w = true →
      w.length ≠ (calculate_heuristic g d).vertices.length := by
    intro w hw
    rw [isWalkFrom_congr hshape] at hw
    rw [hshape.1]
    exact hNoLong w hw
  refine ⟨gMeasure (calculate_heuristic g d) (calculate_heuristic g d).vertices.length
    (initG (calculate_heuristic g d) s k) + 1, ?_, ?_⟩
  · have hpipe := searchLoop_proj (calculate_heuristic g d) d
      (gMeasure (calculate_heuristic g d) (calculate_heuristic g d).vertices.length
        (initG (calculate_heuristic g d) s k) + 1)
      (initG (calculate_heuristic g d) s k)
    have h2 := searchLoopG_total (calculate_heuristic g d) d s
      (calculate_heuristic g d).vertices.length hwfs hNoLong'
      (gMeasure (calculate_heuristic g d) (calculate_heuristic g d).vertices.length
        (initG (calculate_heuristic g d) s k) + 1)
      (initG (calculate_heuristic g d) s k)
      (by
        intro e he
        simp only [initG, List.mem_singleton] at he
        subst he
        simp [isWalk])
      (Nat.lt_succ_self _)
    show (searchLoop d _ (initS (calculate_heuristic g d) s k)).2 = true
    rw [show initS (calculate_heuristic g d) s k =
      projS (calculate_heuristic g d) (initG (calculate_heuristic g d) s k) from rfl, hpipe]
    exact h2
  · intro hunreach
    have hinv := searchLoopG_inv hwfs hd0 hTRI
      (gMeasure (calculate_heuristic g d) (calculate_heuristic g d).vertices.length
        (initG (calculate_heuristic g d) s k) + 1)
      (initG (calculate_heuristic g d) s k) (initG_inv _ d s k)
    have hemp : (searchLoopG (calculate_heuristic g d) d
        (gMeasure (calculate_heuristic g d) (calculate_heuristic g d).vertices.length
          (initG (calculate_heuristic g d) s k) + 1)
        (initG (calculate_heuristic g d) s k)).1.emitted = [] := by
      cases hcase : (searchLoopG (calculate_heuristic g d) d
          (gMeasure (calculate_heuristic g d) (calculate_heuristic g d).vertices.length
            (initG (calculate_heuristic g d) s k) + 1)
          (initG (calculate_heuristic g d) s k)).1.emitted with
      | nil => rfl
      | cons w ws =>
        have hw := (hinv.emitted_walks w (by rw [hcase]; exact List.mem_cons_self _ _)).1
        rw [isWalk_congr hshape] at hw
        rw [hunreach w] at hw
        cases hw
    have hpipe := searchLoop_proj (calculate_heuristic g d) d
      (gMeasure (calculate_heuristic g d) (calculate_heuristic g d).vertices.length
        (initG (calculate_heuristic g d) s k) + 1)
      (initG (calculate_heuristic g d) s k)
    show (searchLoop d _ (initS (calculate_heuristic g d) s k)).1.out = []
    rw [show initS (calculate_heuristic g d) s k =
      projS (calculate_heuristic g d) (initG (calculate_heuristic g d) s k) from rfl, hpipe]
    show (searchLoopG (calculate_heuristic g d) d _
      (initG (calculate_heuristic g d) s k)).1.out = []
    rw [hinv.emitted_costs, hemp]
    rfl

/-- Witness for C8 (amended) on the edgeless 2-vertex graph. -/
theorem C8_terminates_witness :
    WellFormed noEdgeGraph ∧ NonnegWeights noEdgeGraph ∧ InitDists noEdgeGraph ∧
    1 < noEdgeGraph.vertices.length ∧
    (∃ fuel, (pipeline noEdgeGraph 0 1 1 fuel).2 = true ∧
      ((∀ w, isWalk noEdgeGraph 0 1 w = false) →
        (pipeline noEdgeGraph 0 1 1 fuel).1.out = [])) :=
  ⟨by decide, by decide, by decide, by decide,
    C8_terminates noEdgeGraph 0 1 1 (by decide) (by decide) (by decide) (by decide)
      (fun w hw => by
        cases w with
        | nil => decide
        | cons i rest =>
          have h0 : noEdgeGraph.edges.length = 0 := rfl
          simp only [isWalkFrom, h0, Bool.and_eq_true, decide_eq_true_eq] at hw
          exact absurd hw.1.1 (Nat.not_lt_zero i))⟩
